import Mathlib

/-
Verification of `refactor_pricing_package.py`, a batch file-migration tool that
moves a fixed table of Java source files into domain sub-packages, rewrites the
package declaration of each moved file, and rewrites import statements across
the tree.

The script is shallowly embedded here:
* strings are `List Char` (wrapped into `String` constants at the boundary);
* Python's `str.replace` is `replaceAll`, substring containment (`in`) is `occB`;
* the regex `^package\s+com\.meatrics\.pricing\s*;` with `re.MULTILINE` and its
  `re.sub` are embedded as a deterministic character machine (`mStep`/`runM`)
  and a line-start-tracking scanner (`pkgScanF`); for this pattern the greedy
  `\s+`/`\s*` never backtrack productively (the characters following them in
  the pattern are not whitespace), so the committed machine is equivalent;
* the filesystem is a map from relative paths to file contents plus a set of
  directories; each pipeline stage is a state transformer on it.

Only the ASCII fragment of Python's `\s` and `\b` classes is modelled
(`[ \t\n\r\x0b\x0c]` and `[A-Za-z0-9_]`); all strings the script manipulates
are ASCII.
-/

namespace Meatrics

/-! ### Character classes: ASCII fragment of Python's regex `\s` and `\w` -/

/-- ASCII part of Python's regex class `\s`. -/
def isSpaceCh (c : Char) : Bool :=
  c = ' ' || c = '\t' || c = '\n' || c = '\r' || c = '\x0b' || c = '\x0c'

/-- ASCII part of Python's regex class `\w` (used for `\b` word boundaries). -/
def isWordCh (c : Char) : Bool :=
  ('a' ≤ c && c ≤ 'z') || ('A' ≤ c && c ≤ 'Z') || ('0' ≤ c && c ≤ '9') || c = '_'

/-! ### Substring primitives

`pfxB pat s` : `pat` is a literal prefix of `s`;
`occB pat s` : `pat` occurs as a contiguous substring of `s` (Python's `in`);
`replApp pat rep f s` : Python's `s.replace(pat, rep)` (all occurrences,
scanning left to right, non-overlapping), with fuel `f ≥ s.length`. -/

def pfxB : List Char → List Char → Bool
  | [], _ => true
  | _ :: _, [] => false
  | p :: ps, c :: cs => p = c && pfxB ps cs

def occB (pat : List Char) : List Char → Bool
  | [] => pat.isEmpty
  | c :: cs => pfxB pat (c :: cs) || occB pat cs

/-- Python `str.replace`, fuelled (`f ≥ s.length` in every use; each step
consumes at least one character since the script's patterns are nonempty, so
the fuel never runs out). -/
def replApp (pat rep : List Char) : Nat → List Char → List Char
  | 0, s => s
  | _ + 1, [] => []
  | f + 1, c :: cs =>
    if pfxB pat (c :: cs) then
      rep ++ replApp pat rep f ((c :: cs).drop pat.length)
    else
      c :: replApp pat rep f cs

def replaceAll (pat rep s : List Char) : List Char := replApp pat rep s.length s

/-! ### Static configuration (`DOMAINS`, `CLASS_TO_DOMAIN`)

Transcribed from the script.  `CLASS_TO_DOMAIN` is a Python dict built by
insertion; the file names are pairwise distinct (proved in C9), so the
association list in insertion order is a faithful model. -/

def DOMAINS : List (String × List String) := [
  ("customer", [
    "Customer.java",
    "CustomerRepository.java",
    "CustomerRatingService.java",
    "CustomerRatingReportDTO.java"]),
  ("rule", [
    "PricingRule.java",
    "PricingRuleRepository.java",
    "PricingRuleService.java",
    "RuleCategory.java",
    "RulePreviewResult.java"]),
  ("session", [
    "PricingSession.java",
    "PricingSessionRepository.java",
    "PricingSessionService.java",
    "PricingSessionLineItem.java",
    "PricingSessionLineItemRepository.java"]),
  ("calculation", [
    "PriceCalculationService.java",
    "PricePreview.java",
    "PricingResult.java"]),
  ("importer", [
    "ImportSummary.java",
    "ImportSummaryRepository.java",
    "ImportedLineItem.java",
    "ImportedLineItemRepository.java",
    "PricingImportService.java",
    "ProductCostImportService.java",
    "CostImportSummary.java",
    "CostImportSummaryRepository.java",
    "DuplicateImportException.java"]),
  ("product", [
    "ProductCost.java",
    "ProductCostRepository.java",
    "GroupedLineItem.java",
    "GroupedLineItemRepository.java"]),
  ("report", [
    "ReportExportService.java",
    "CostReportDTO.java"]),
  ("config", [
    "SystemDefaultPricingRuleInitializer.java"])]

/-- `filename.replace(".java", "")`. -/
def className (fn : String) : String := ⟨replaceAll ".java".toList [] fn.toList⟩

/-- The class-to-domain index, in dict insertion order. -/
def CLASS_TO_DOMAIN : List (String × String) :=
  (DOMAINS.map fun p => p.2.map fun fn => (className fn, p.1)).flatten

/-! ### The package-declaration pattern as a character machine

The move stage runs
`re.sub(r'^package\s+com\.meatrics\.pricing\s*;', f'package {new_package};',
content, flags=re.MULTILINE)`.
We embed one anchored match attempt as a deterministic machine stepping one
character at a time.  The regex's greedy `\s+`/`\s*` cannot backtrack
productively on this pattern: the characters that follow them in the pattern
(`c` of the path literal, `;`) are never whitespace, so after consuming a
maximal whitespace run the continuation is forced, and the committed machine
accepts exactly the regex's matches (with the regex's match end). -/

def pkgKw : List Char := "package".toList

def pkgPath : List Char := "com.meatrics.pricing".toList

/-- Matcher states: `lit1 t` = still consuming `"package"` (remainder `t`);
`wsPlus` = at `\s+`, nothing consumed yet; `wsMore` = inside the whitespace
run; `lit2 t` = consuming `"com.meatrics.pricing"` (remainder `t`);
`wsSemi` = at `\s*;`. -/
inductive MSt
  | lit1 (t : List Char)
  | wsPlus
  | wsMore
  | lit2 (t : List Char)
  | wsSemi
deriving DecidableEq

inductive MRes
  | failed
  | done
  | cont (σ : MSt)
deriving DecidableEq

/-- Consume one character of a pending literal `ts`; on finishing the literal
move to `next`. -/
def litStep (mk : List Char → MSt) (next : MSt) (ts : List Char) (c : Char) : MRes :=
  match ts with
  | [] => .failed
  | [t] => if c = t then .cont next else .failed
  | t :: t2 :: ts' => if c = t then .cont (mk (t2 :: ts')) else .failed

def mStep : MSt → Char → MRes
  | .lit1 ts, c => litStep .lit1 .wsPlus ts c
  | .wsPlus, c => if isSpaceCh c then .cont .wsMore else .failed
  | .wsMore, c => if isSpaceCh c then .cont .wsMore else litStep .lit2 .wsSemi pkgPath c
  | .lit2 ts, c => litStep .lit2 .wsSemi ts c
  | .wsSemi, c => if isSpaceCh c then .cont .wsSemi else if c = ';' then .done else .failed

def mInit : MSt := .lit1 pkgKw

/-- Run the matcher to completion; `some r` returns the rest of the input
after the match (the regex match ends right after the `;`). -/
def runM : MSt → List Char → Option (List Char)
  | _, [] => none
  | σ, c :: cs =>
    match mStep σ c with
    | .failed => none
    | .done => some cs
    | .cont σ' => runM σ' cs

/-- One anchored attempt of `package\s+com\.meatrics\.pricing\s*;` at the
current position. -/
def matchPkgDecl (s : List Char) : Option (List Char) := runM mInit s

/-- Partial run: what is left of the attempt after consuming a chunk. -/
inductive PRes
  | failed
  | doneAt (rest : List Char)
  | alive (σ : MSt)
deriving DecidableEq

def runP : MSt → List Char → PRes
  | σ, [] => .alive σ
  | σ, c :: cs =>
    match mStep σ c with
    | .failed => .failed
    | .done => .doneAt cs
    | .cont σ' => runP σ' cs

/-- States actually reachable from `mInit`. -/
def validSt : MSt → Prop
  | .lit1 ts => ts ≠ [] ∧ ∃ u, u ++ ts = pkgKw
  | .lit2 ts => ts ≠ [] ∧ ∃ u, u ++ ts = pkgPath
  | _ => True

/-! ### The replacement string and the kill lemma

Every valid machine state dies within the 29 concrete characters
`"package com.meatrics.pricing."` that start every replacement string, so no
match attempt can succeed from any position once it reads into a replacement.
-/

/-- `f'package {new_package};'` with `new_package = f"com.meatrics.pricing.{domain}"`. -/
def pkgRepl (d : List Char) : List Char :=
  pkgKw ++ ' ' :: (pkgPath ++ '.' :: (d ++ [';']))

/-- The 29-character head shared by every replacement string. -/
def qualHead : List Char := pkgKw ++ ' ' :: (pkgPath ++ ['.'])

/-- The reachable machine states, as a concrete list. -/
def reachSts : List MSt :=
  (pkgKw.tails.filter (fun t => !t.isEmpty)).map MSt.lit1 ++
    ([MSt.wsPlus, MSt.wsMore, MSt.wsSemi] ++
      (pkgPath.tails.filter (fun t => !t.isEmpty)).map MSt.lit2)

/-! ### The `re.sub` scanner

With `re.MULTILINE`, `^` matches at the start of the string and right after
every `'\n'`.  The scanner walks the text carrying the flag "the current
position is a line start"; at a line start it attempts the anchored pattern,
on success emits the replacement and resumes after the match (matches are
non-overlapping, leftmost first, all of them replaced — `count=0`), otherwise
it copies one character. -/

def pkgScanF (rep : List Char) : Nat → Bool → List Char → List Char
  | 0, _, s => s
  | _ + 1, _, [] => []
  | f + 1, true, c :: cs =>
    match matchPkgDecl (c :: cs) with
    | some r => rep ++ pkgScanF rep f false r
    | none => c :: pkgScanF rep f (c == '\n') cs
  | f + 1, false, c :: cs => c :: pkgScanF rep f (c == '\n') cs

/-- The move stage's rewrite of a moved file's content for domain `d`. -/
def pkgSub (d s : List Char) : List Char := pkgScanF (pkgRepl d) s.length true s

/-- String-level wrapper. -/
def pkgSubStr (d content : String) : String := ⟨pkgSub d.toList content.toList⟩

/-- `NoMatchFrom b s`: scanning `s` with initial line-start flag `b` finds no
match at any attempted position. -/
def NoMatchFrom : Bool → List Char → Prop
  | _, [] => True
  | b, c :: cs => (b = true → matchPkgDecl (c :: cs) = none) ∧ NoMatchFrom (c == '\n') cs

/-- Newline-joined lines (the inverse of splitting a text into lines). -/
def joinNl : List (List Char) → List Char
  | [] => []
  | [l] => l
  | l :: rest => l ++ '\n' :: joinNl rest

/-- Per-line effect of the move-stage rewrite: if the anchored pattern matches
at the line's start, the match is replaced by `rep` and the line's remainder
kept; otherwise the line is unchanged. -/
def lineOut (rep l : List Char) : List Char :=
  match matchPkgDecl l with
  | some r => rep ++ r
  | none => l

/-- The match attempt at a line's start resolves (fails or matches) within the
line itself, without reading past its end. -/
def settles (l : List Char) : Bool :=
  match runP mInit l with
  | .alive _ => false
  | _ => true

/-! ### The import rewriter (`update_imports`) as a content transform

For one file, `update_imports`
1. for each known class (dict order), replaces every occurrence of the exact
   literal `import com.meatrics.pricing.<Class>;` by
   `import com.meatrics.pricing.<domain>.<Class>;` when present;
2. if `import com.meatrics.pricing.*;` occurs, scans the (already
   exact-rewritten) text for word-boundary occurrences of each known class
   name, and when at least one is found replaces every occurrence of the
   wildcard string by the newline-joined explicit imports of the detected
   classes in alphabetical order. -/

/-- `f"import com.meatrics.pricing.{classname};"`. -/
def oldImp (cn : List Char) : List Char :=
  "import com.meatrics.pricing.".toList ++ cn ++ [';']

/-- `f"import com.meatrics.pricing.{domain}.{classname};"`. -/
def newImp (dom cn : List Char) : List Char :=
  "import com.meatrics.pricing.".toList ++ dom ++ '.' :: (cn ++ [';'])

/-- `"import com.meatrics.pricing.*;"`. -/
def wildcardImp : List Char := "import com.meatrics.pricing.*;".toList

/-- One iteration of the exact-import loop for the table entry
`p = (classname, domain)`:
`if old_import in content: content = content.replace(old_import, new_import)`. -/
def impStep (c : List Char) (p : String × String) : List Char :=
  if occB (oldImp p.1.toList) c then
    replaceAll (oldImp p.1.toList) (newImp p.2.toList p.1.toList) c
  else c

/-- The exact-import loop (`for classname, domain in CLASS_TO_DOMAIN.items()`). -/
def exactStep (content : List Char) : List Char :=
  CLASS_TO_DOMAIN.foldl impStep content

/-- One position of `re.search(r'\b' + classname + r'\b', content)`: the class
name (made of word characters only) occurs here with no word character
adjacent on either side. -/
def wbAt (cn : List Char) (s : List Char) : Bool :=
  pfxB cn s &&
    (match s.drop cn.length with
     | [] => true
     | c :: _ => !isWordCh c)

/-- Scan for a word-boundary occurrence; `prevW` says whether the previous
character was a word character (false at the string start). -/
def wbSearch (cn : List Char) : Bool → List Char → Bool
  | _, [] => false
  | prevW, c :: cs => (!prevW && wbAt cn (c :: cs)) || wbSearch cn (isWordCh c) cs

def wordOccurs (cn content : List Char) : Bool := wbSearch cn false content

/-- The detected used-class set, in dict insertion order. -/
def usedClasses (content : List Char) : List String :=
  (CLASS_TO_DOMAIN.map (·.1)).filter fun cn => wordOccurs cn.toList content

/-- `sorted(used_classes)` (Python sorts strings lexicographically). -/
def sortedUsed (content : List Char) : List String :=
  (usedClasses content).mergeSort fun a b => decide (a ≤ b)

/-- `CLASS_TO_DOMAIN[classname]`. -/
def domainOf (cn : String) : String :=
  ((CLASS_TO_DOMAIN.find? fun p => p.1 == cn).map (·.2)).getD ""

/-- The wildcard-import branch. -/
def wildcardStep (content : List Char) : List Char :=
  if occB wildcardImp content then
    match sortedUsed content with
    | [] => content
    | used =>
      replaceAll wildcardImp
        (joinNl (used.map fun cn => newImp (domainOf cn).toList cn.toList))
        content
  else content

/-- The whole `update_imports` content transform for one file. -/
def updImports (content : List Char) : List Char := wildcardStep (exactStep content)

/-! ### Character shape of the configured names

Class names are nonempty alphanumeric strings starting with an upper-case
letter; domain names are nonempty lower-case strings.  These concrete facts
(checked by `decide` over the table) drive all the non-overlap conditions. -/

def isUpperCh (c : Char) : Bool := 'A' ≤ c && c ≤ 'Z'

def isLowerCh (c : Char) : Bool := 'a' ≤ c && c ≤ 'z'

def isAlnumCh (c : Char) : Bool := isUpperCh c || isLowerCh c || ('0' ≤ c && c ≤ '9')

def goodClass (cn : List Char) : Bool :=
  !cn.isEmpty && cn.all isAlnumCh && isUpperCh (cn.headD ' ')

def goodDomain (d : List Char) : Bool :=
  !d.isEmpty && d.all isLowerCh

/-- The shared 28-character prefix of every import string. -/
def impPfx : List Char := "import com.meatrics.pricing.".toList

/-- `"import"` (before the single space of `impPfx`). -/
def impKw : List Char := "import".toList

/-- `"com.meatrics.pricing."` (after the single space of `impPfx`). -/
def impPath : List Char := "com.meatrics.pricing.".toList

/-- The patterns whose absence we track: the exact old imports of well-formed
class names, and the wildcard import. -/
def watched (pat : List Char) : Prop :=
  (∃ cn, goodClass cn = true ∧ pat = oldImp cn) ∨ pat = wildcardImp

/-- The exact-import loop restricted to a single line of the content. -/
def lineExact (l : List Char) : List Char := CLASS_TO_DOMAIN.foldl impStep l

/-! ### Filesystem and pipeline model

Paths are component lists relative to `BASE_DIR`; the store is the listing of
(path, content) pairs in directory-walk order, the only mutable state. -/

abbrev Path := List String

abbrev FS := List (Path × String)

def lookupFS (fs : FS) (p : Path) : Option String :=
  (fs.find? (fun e => e.1 == p)).map (·.2)

def existsFS (fs : FS) (p : Path) : Bool := (fs.find? (fun e => e.1 == p)).isSome

/-- `open(p, 'w')`: replace the content in place if the path exists, else
append a new entry. -/
def writeFS (fs : FS) (p : Path) (v : String) : FS :=
  if existsFS fs p then fs.map (fun e => if e.1 == p then (p, v) else e)
  else fs ++ [(p, v)]

/-- `source.unlink()`. -/
def unlinkFS (fs : FS) (p : Path) : FS := fs.filter (fun e => !(e.1 == p))

/-- `domain_dir.mkdir(exist_ok=True)`. -/
def mkdirFS (ds : List Path) (d : Path) : List Path :=
  if ds.contains d then ds else ds ++ [d]

structure Sys where
  dirs : List Path
  fs : FS
deriving DecidableEq

def srcPath (fn : String) : Path := ["pricing", fn]

def destPath (d fn : String) : Path := ["pricing", d, fn]

def domainPath (d : String) : Path := ["pricing", d]

/-- `create_domain_packages`: in dry-run it only prints; live it ensures one
directory per domain. -/
def createStage (dry : Bool) (ds : List Path) : List Path :=
  if dry then ds else DOMAINS.foldl (fun ds p => mkdirFS ds (domainPath p.1)) ds

/-- One iteration of the move loops for `(domain, filename)`: a missing source
warns and skips; dry-run only counts; live reads, rewrites the package
declaration, writes the destination, then unlinks the source. -/
def moveOne (dry : Bool) (d fn : String) :
    FS × Nat × List String → FS × Nat × List String
  | (fs, n, ws) =>
    match lookupFS fs (srcPath fn) with
    | none => (fs, n, ws ++ [fn])
    | some content =>
      if dry then (fs, n + 1, ws)
      else
        (unlinkFS (writeFS fs (destPath d fn) (pkgSubStr d content)) (srcPath fn),
          n + 1, ws)

/-- `move_files_and_update_packages` (the nested `for` loops over the table),
returning the store, `moved_count` and the warned file names. -/
def moveStage (dry : Bool) (fs : FS) : FS × Nat × List String :=
  DOMAINS.foldl (fun acc p => p.2.foldl (fun a fn => moveOne dry p.1 fn a) acc)
    (fs, 0, [])

/-- The `(domain, filename)` pairs in iteration order. -/
def movePairs : List (String × String) :=
  (DOMAINS.map (fun p => p.2.map (fun fn => (p.1, fn)))).flatten

def endsJava (s : String) : Bool := pfxB ".java".toList.reverse s.toList.reverse

/-- Whether a path is matched by `rglob("*.java")`. -/
def isJava (p : Path) : Bool :=
  match p.getLast? with
  | some s => endsJava s
  | none => false

/-- String-level `update_imports` content transform for one file. -/
def updStr (s : String) : String := ⟨updImports s.toList⟩

/-- Per-file effect of the import-rewrite loop: a `.java` file whose
transformed content differs from the original is written back with the new
content; every other file is left untouched. -/
def updFile (e : Path × String) : Path × String :=
  if isJava e.1 && !(updStr e.2 == e.2) then (e.1, updStr e.2) else e

/-- `update_imports` over the whole tree: the resulting store, and the list of
files written back (exactly those whose content changed). -/
def updateStage (fs : FS) : FS × List Path :=
  (fs.map updFile,
    (fs.filter (fun e => isJava e.1 && !(updStr e.2 == e.2))).map (·.1))

/-- The stage pipeline of `main` after the prompt: create directories, move
files, and — live only — rewrite imports (`update_imports` is skipped in
dry-run). Returns the final state, `moved_count`, the warned file names, and
`files_updated`. -/
def runPipeline (dry : Bool) (sys : Sys) : Sys × Nat × List String × Nat :=
  let ds := createStage dry sys.dirs
  let mv := moveStage dry sys.fs
  if dry then (⟨ds, mv.1⟩, mv.2.1, mv.2.2, 0)
  else
    let up := updateStage mv.1
    (⟨ds, up.1⟩, mv.2.1, mv.2.2, up.2.length)

/-- Python `str.lower` on the ASCII range (the confirmation check). -/
def lowerCharPy (c : Char) : Char :=
  if 'A' ≤ c && c ≤ 'Z' then Char.ofNat (c.toNat + 32) else c

def lowerStr (s : String) : String := ⟨s.toList.map lowerCharPy⟩

/-- How the run body ends: normal completion, `KeyboardInterrupt`, or an
unhandled `Exception`. -/
inductive RunEv
  | ok
  | interrupt
  | excp
deriving DecidableEq

/-- Exit code and whether a diagnostic trace is printed, following `main` and
the `__main__` handlers: a missing pricing directory raises `SystemExit(1)`
(not caught by `except Exception`); a declined confirmation raises
`SystemExit(0)`; then `KeyboardInterrupt` exits 1, an unhandled `Exception`
prints a trace and exits 1, and normal completion exits 0. -/
def mainExit (dry pricingExists : Bool) (resp : String) (ev : RunEv) : Nat × Bool :=
  if pricingExists = false then (1, false)
  else if dry = false && !(lowerStr resp == "yes") then (0, false)
  else
    match ev with
    | .ok => (0, false)
    | .interrupt => (1, false)
    | .excp => (1, true)

/-! ### Theorems -/

theorem runM_append (σ : MSt) (u v : List Char) :
    runM σ (u ++ v) =
      (match runP σ u with
       | .failed => none
       | .doneAt r => some (r ++ v)
       | .alive σ' => runM σ' v) := by
  induction u generalizing σ with
  | nil => simp [runP]
  | cons c cs ih =>
    simp only [List.cons_append, runM, runP]
    cases mStep σ c with
    | failed => rfl
    | done => rfl
    | cont σ' => exact ih σ'

theorem runM_length {σ : MSt} {s r : List Char} (h : runM σ s = some r) :
    r.length < s.length := by
  induction s generalizing σ with
  | nil => simp [runM] at h
  | cons c cs ih =>
    simp only [runM] at h
    cases hs : mStep σ c with
    | failed => rw [hs] at h; exact absurd h (by simp)
    | done =>
      rw [hs] at h
      cases h
      simp
    | cont σ' =>
      rw [hs] at h
      exact Nat.lt_trans (ih h) (by simp)

theorem validSt_mInit : validSt mInit := ⟨by decide, [], rfl⟩

theorem pkgPath_cons : pkgPath = 'c' :: 'o' :: "m.meatrics.pricing".toList := rfl

theorem mStep_valid {σ σ' : MSt} {c : Char} (h : validSt σ)
    (hs : mStep σ c = .cont σ') : validSt σ' := by
  cases σ with
  | lit1 ts =>
    obtain ⟨hne, u, hu⟩ := h
    match ts, hne with
    | [t], _ =>
      by_cases hc : c = t
      · simp only [mStep, litStep, if_pos hc] at hs
        cases hs; trivial
      · simp only [mStep, litStep, if_neg hc] at hs; cases hs
    | t :: t2 :: ts', _ =>
      by_cases hc : c = t
      · simp only [mStep, litStep, if_pos hc] at hs
        cases hs
        exact ⟨by simp, u ++ [t], by simpa using hu⟩
      · simp only [mStep, litStep, if_neg hc] at hs; cases hs
  | wsPlus =>
    by_cases hws : isSpaceCh c
    · simp only [mStep, if_pos hws] at hs
      cases hs; trivial
    · simp only [mStep, if_neg hws] at hs; cases hs
  | wsMore =>
    by_cases hws : isSpaceCh c
    · simp only [mStep, if_pos hws] at hs
      cases hs; trivial
    · simp only [mStep, if_neg hws, pkgPath_cons, litStep] at hs
      by_cases hc : c = 'c'
      · rw [if_pos hc] at hs
        cases hs
        exact ⟨by simp, ['c'], by simp [pkgPath_cons]⟩
      · rw [if_neg hc] at hs; cases hs
  | lit2 ts =>
    obtain ⟨hne, u, hu⟩ := h
    match ts, hne with
    | [t], _ =>
      by_cases hc : c = t
      · simp only [mStep, litStep, if_pos hc] at hs
        cases hs; trivial
      · simp only [mStep, litStep, if_neg hc] at hs; cases hs
    | t :: t2 :: ts', _ =>
      by_cases hc : c = t
      · simp only [mStep, litStep, if_pos hc] at hs
        cases hs
        exact ⟨by simp, u ++ [t], by simpa using hu⟩
      · simp only [mStep, litStep, if_neg hc] at hs; cases hs
  | wsSemi =>
    by_cases hws : isSpaceCh c
    · simp only [mStep, if_pos hws] at hs
      cases hs; trivial
    · simp only [mStep, if_neg hws] at hs
      by_cases hc : c = ';'
      · rw [if_pos hc] at hs; cases hs
      · rw [if_neg hc] at hs; cases hs

theorem runP_valid {σ σ' : MSt} {u : List Char} (h : validSt σ)
    (hp : runP σ u = .alive σ') : validSt σ' := by
  induction u generalizing σ with
  | nil => simp only [runP] at hp; cases hp; exact h
  | cons c cs ih =>
    simp only [runP] at hp
    cases hs : mStep σ c with
    | failed => rw [hs] at hp; cases hp
    | done => rw [hs] at hp; cases hp
    | cont σ'' => rw [hs] at hp; exact ih (mStep_valid h hs) hp

theorem runM_split {σ : MSt} {s r : List Char} (h : runM σ s = some r) :
    ∃ m, s = m ++ r := by
  induction s generalizing σ with
  | nil => simp [runM] at h
  | cons c cs ih =>
    simp only [runM] at h
    cases hs : mStep σ c with
    | failed => rw [hs] at h; exact absurd h (by simp)
    | done => rw [hs] at h; cases h; exact ⟨[c], rfl⟩
    | cont σ' =>
      rw [hs] at h
      obtain ⟨m, hm⟩ := ih h
      exact ⟨c :: m, by simp [hm]⟩

theorem runP_doneAt_split {σ : MSt} {u r : List Char} (h : runP σ u = .doneAt r) :
    ∃ m, u = m ++ r := by
  induction u generalizing σ with
  | nil => simp [runP] at h
  | cons c cs ih =>
    simp only [runP] at h
    cases hs : mStep σ c with
    | failed => rw [hs] at h; cases h
    | done => rw [hs] at h; cases h; exact ⟨[c], rfl⟩
    | cont σ' =>
      rw [hs] at h
      obtain ⟨m, hm⟩ := ih h
      exact ⟨c :: m, by simp [hm]⟩

/-- `runM` on the whole input, phrased through `runP`. -/
theorem runM_of_runP_failed {σ : MSt} {s : List Char} (h : runP σ s = .failed) :
    runM σ s = none := by
  have := runM_append σ s []
  rw [List.append_nil, h] at this
  exact this

theorem runM_of_runP_doneAt {σ : MSt} {s r : List Char} (h : runP σ s = .doneAt r) :
    runM σ s = some r := by
  have := runM_append σ s []
  rw [List.append_nil, h] at this
  simpa using this

theorem pkgRepl_customer :
    pkgRepl "customer".toList = "package com.meatrics.pricing.customer;".toList := rfl

theorem pkgRepl_eq (d : List Char) : pkgRepl d = qualHead ++ (d ++ [';']) := by
  simp [pkgRepl, qualHead]

theorem validSt_mem {σ : MSt} (h : validSt σ) : σ ∈ reachSts := by
  cases σ with
  | lit1 ts =>
    obtain ⟨hne, u, hu⟩ := h
    have ht : ts ∈ pkgKw.tails := (List.mem_tails _ _).mpr ⟨u, hu⟩
    exact List.mem_append.mpr (Or.inl
      (List.mem_map.mpr ⟨ts, List.mem_filter.mpr ⟨ht, by simpa using hne⟩, rfl⟩))
  | lit2 ts =>
    obtain ⟨hne, u, hu⟩ := h
    have ht : ts ∈ pkgPath.tails := (List.mem_tails _ _).mpr ⟨u, hu⟩
    refine List.mem_append.mpr (Or.inr (List.mem_append.mpr (Or.inr ?_)))
    exact List.mem_map.mpr ⟨ts, List.mem_filter.mpr ⟨ht, by simpa using hne⟩, rfl⟩
  | wsPlus => exact by decide
  | wsMore => exact by decide
  | wsSemi => exact by decide

theorem reach_kill : ∀ σ ∈ reachSts, runP σ qualHead = .failed := by decide

theorem runM_kill {σ : MSt} (h : validSt σ) (w : List Char) :
    runM σ (qualHead ++ w) = none := by
  rw [runM_append, reach_kill σ (validSt_mem h)]

/-- The pattern can never match starting anywhere on a replacement string: in
particular it does not match a domain-qualified declaration
`package com.meatrics.pricing.<domain>;`. -/
theorem matchPkgDecl_pkgRepl (d w : List Char) :
    matchPkgDecl (pkgRepl d ++ w) = none := by
  rw [matchPkgDecl, pkgRepl_eq, List.append_assoc]
  exact runM_kill validSt_mInit _

theorem pkgScanF_fuel (rep : List Char) :
    ∀ f g b s, s.length ≤ f → s.length ≤ g →
      pkgScanF rep f b s = pkgScanF rep g b s := by
  intro f
  induction f with
  | zero =>
    intro g b s hf _
    have hs : s = [] := List.eq_nil_of_length_eq_zero (Nat.le_zero.mp hf)
    subst hs
    cases g <;> cases b <;> rfl
  | succ f ih =>
    intro g b s hf hg
    cases s with
    | nil => cases g <;> cases b <;> rfl
    | cons c cs =>
      cases g with
      | zero => simp at hg
      | succ g =>
        have hf' : cs.length ≤ f := by simp at hf; omega
        have hg' : cs.length ≤ g := by simp at hg; omega
        cases b with
        | false =>
          simp only [pkgScanF]
          rw [ih g _ cs hf' hg']
        | true =>
          simp only [pkgScanF]
          cases hm : matchPkgDecl (c :: cs) with
          | some r =>
            have hlen := runM_length hm
            have hr : r.length ≤ f := by simp at hlen; omega
            have hr' : r.length ≤ g := by simp at hlen; omega
            show rep ++ pkgScanF rep f false r = rep ++ pkgScanF rep g false r
            rw [ih g false r hr hr']
          | none =>
            show c :: pkgScanF rep f (c == '\n') cs = c :: pkgScanF rep g (c == '\n') cs
            rw [ih g _ cs hf' hg']

/-- C9: the Domain Table holds 33 file names in total, pairwise distinct (so
each file name is under exactly one domain), and the derived class-to-domain
index pairs each of the 33 class names (file name minus extension) with its
unique domain, in bijection with the table's file entries. -/
theorem C9_domain_table_bijective :
    ((DOMAINS.map (·.2)).flatten.length = 33) ∧
    ((DOMAINS.map (·.2)).flatten.Nodup) ∧
    CLASS_TO_DOMAIN.length = 33 ∧
    (CLASS_TO_DOMAIN.map (·.1)).Nodup ∧
    CLASS_TO_DOMAIN.map (·.1) = (DOMAINS.map (·.2)).flatten.map className := by
  decide

/-! ### The scanner's output admits no further match

Core fact behind idempotence: every replacement string starts with the
29 concrete characters of `qualHead`, on which every reachable machine state
dies; so a second scan of the output can find no match anywhere. -/

/-- Scanning from a non-line-start position copies a newline-free chunk
verbatim (the `^` anchor cannot fire inside it). -/
theorem pkgScanF_copy (rep : List Char) :
    ∀ chunk z f g, (chunk ++ z).length ≤ f → z.length ≤ g →
      (∀ c ∈ chunk, c ≠ '\n') →
      pkgScanF rep f false (chunk ++ z) = chunk ++ pkgScanF rep g false z := by
  intro chunk
  induction chunk with
  | nil =>
    intro z f g hf hg _
    simpa using pkgScanF_fuel rep f g false z (by simpa using hf) hg
  | cons c ch ih =>
    intro z f g hf hg hnl
    cases f with
    | zero => simp at hf
    | succ f =>
      have hc : (c == '\n') = false := by
        have := hnl c (by simp)
        simpa using this
      simp only [List.cons_append, pkgScanF, hc]
      exact congrArg (c :: ·)
        (ih z f g (by simp at hf ⊢; omega) hg (fun x hx => hnl x (by simp [hx])))

theorem pkgScanF_of_noMatch (rep : List Char) :
    ∀ s b f, s.length ≤ f → NoMatchFrom b s → pkgScanF rep f b s = s := by
  intro s
  induction s with
  | nil => intro b f _ _; cases f <;> cases b <;> rfl
  | cons c cs ih =>
    intro b f hf h
    cases f with
    | zero => simp at hf
    | succ f =>
      obtain ⟨h1, h2⟩ := h
      cases b with
      | false =>
        simp only [pkgScanF]
        rw [ih _ f (by simp at hf; omega) h2]
      | true =>
        simp only [pkgScanF, h1 rfl]
        rw [ih _ f (by simp at hf; omega) h2]

theorem noMatch_append_chunk :
    ∀ chunk z b, chunk ≠ [] → (∀ c ∈ chunk, c ≠ '\n') →
      (b = true → matchPkgDecl (chunk ++ z) = none) →
      NoMatchFrom false z →
      NoMatchFrom b (chunk ++ z) := by
  intro chunk
  induction chunk with
  | nil => intro z b h; cases h rfl
  | cons c ch ih =>
    intro z b _ hnl hm hz
    have hc : (c == '\n') = false := by simpa using hnl c (by simp)
    show (b = true → matchPkgDecl (c :: (ch ++ z)) = none) ∧
      NoMatchFrom (c == '\n') (ch ++ z)
    refine ⟨hm, ?_⟩
    rw [hc]
    cases ch with
    | nil => simpa using hz
    | cons d ds =>
      exact ih z false (by simp) (fun x hx => hnl x (by simp [hx])) (by simp) hz

/-- Decomposition of a scan: either nothing was replaced, or the output is an
untouched prefix of the input followed by the replacement string and the scan
of the input's tail after the first match. -/
theorem pkgScanF_decomp (rep : List Char) :
    ∀ f s b, s.length ≤ f →
      pkgScanF rep f b s = s ∨
      ∃ p m r g, r.length ≤ g ∧ s = p ++ (m ++ r) ∧
        pkgScanF rep f b s = p ++ (rep ++ pkgScanF rep g false r) := by
  intro f
  induction f with
  | zero =>
    intro s b hf
    have hs : s = [] := List.eq_nil_of_length_eq_zero (Nat.le_zero.mp hf)
    subst hs
    exact Or.inl (by cases b <;> rfl)
  | succ f ih =>
    intro s b hf
    cases s with
    | nil => exact Or.inl (by cases b <;> rfl)
    | cons c cs =>
      have hf' : cs.length ≤ f := by simp at hf; omega
      cases b with
      | false =>
        rcases ih cs (c == '\n') hf' with h | ⟨p, m, r, g, hg, hsplit, heq⟩
        · refine Or.inl ?_
          simp only [pkgScanF]
          rw [h]
        · refine Or.inr ⟨c :: p, m, r, g, hg, by simp [hsplit], ?_⟩
          simp only [pkgScanF]
          rw [heq]
          simp
      | true =>
        cases hm : matchPkgDecl (c :: cs) with
        | some r =>
          obtain ⟨m, hmsplit⟩ := runM_split hm
          have hlen := runM_length hm
          refine Or.inr ⟨[], m, r, f, by simp at hlen; omega, by simpa using hmsplit, ?_⟩
          simp only [pkgScanF, hm]
          simp
        | none =>
          rcases ih cs (c == '\n') hf' with h | ⟨p, m, r, g, hg, hsplit, heq⟩
          · refine Or.inl ?_
            simp only [pkgScanF, hm]
            rw [h]
          · refine Or.inr ⟨c :: p, m, r, g, hg, by simp [hsplit], ?_⟩
            simp only [pkgScanF, hm]
            rw [heq]
            simp

/-- The crux: at a position where the attempt failed on the original tail, it
still fails on the scanned tail — a replacement further right can never
complete a match begun on untouched text. -/
theorem matchPkgDecl_scanned {d : List Char} {c : Char} {cs : List Char}
    (h : matchPkgDecl (c :: cs) = none) (b : Bool) (f : Nat) (hf : cs.length ≤ f) :
    matchPkgDecl (c :: pkgScanF (pkgRepl d) f b cs) = none := by
  rcases pkgScanF_decomp (pkgRepl d) f cs b hf with heq | ⟨p, m, r, g, _, hsplit, heq⟩
  · rw [heq]; exact h
  · rw [heq]
    have key : runM mInit ((c :: p) ++ (pkgRepl d ++ pkgScanF (pkgRepl d) g false r))
        = none := by
      rw [runM_append]
      cases hp : runP mInit (c :: p) with
      | failed => rfl
      | doneAt r2 =>
        exfalso
        have h2 : runM mInit ((c :: p) ++ (m ++ r)) = some (r2 ++ (m ++ r)) := by
          rw [runM_append, hp]
        rw [hsplit] at h
        simp only [matchPkgDecl] at h
        rw [show (c :: p) ++ (m ++ r) = c :: (p ++ (m ++ r)) by simp] at h2
        rw [h] at h2
        cases h2
      | alive σ2 =>
        rw [pkgRepl_eq, List.append_assoc]
        exact runM_kill (runP_valid validSt_mInit hp) _
    simpa [matchPkgDecl] using key

theorem pkgRepl_no_nl {d : List Char} (hd : '\n' ∉ d) :
    ∀ c ∈ pkgRepl d, c ≠ '\n' := by
  intro c hc he
  subst he
  simp only [pkgRepl, List.mem_append, List.mem_cons] at hc
  rcases hc with h | h | h | h | h | h | h
  · exact absurd h (by decide)
  · exact absurd h (by decide)
  · exact absurd h (by decide)
  · exact absurd h (by decide)
  · exact absurd h hd
  · exact absurd h (by decide)
  · simp at h

/-- A scan's output contains no position where the pattern would match. -/
theorem noMatch_scan {d : List Char} (hd : '\n' ∉ d) :
    ∀ f s b, s.length ≤ f → NoMatchFrom b (pkgScanF (pkgRepl d) f b s) := by
  intro f
  induction f with
  | zero =>
    intro s b hf
    have hs : s = [] := List.eq_nil_of_length_eq_zero (Nat.le_zero.mp hf)
    subst hs
    cases b <;> exact trivial
  | succ f ih =>
    intro s b hf
    cases s with
    | nil => cases b <;> exact trivial
    | cons c cs =>
      have hf2 : cs.length ≤ f := by simp at hf; omega
      cases b with
      | false =>
        show NoMatchFrom false (c :: pkgScanF (pkgRepl d) f (c == '\n') cs)
        exact ⟨by simp, ih cs (c == '\n') hf2⟩
      | true =>
        cases hm : matchPkgDecl (c :: cs) with
        | some r =>
          simp only [pkgScanF, hm]
          have hlen := runM_length hm
          apply noMatch_append_chunk
          · simp [pkgRepl, pkgKw]
          · exact pkgRepl_no_nl hd
          · intro _; exact matchPkgDecl_pkgRepl d _
          · exact ih r false (by simp at hlen; omega)
        | none =>
          simp only [pkgScanF, hm]
          exact ⟨fun _ => matchPkgDecl_scanned hm _ f hf2, ih cs (c == '\n') hf2⟩

/-- Applying the move-stage rewrite twice gives the same content as applying
it once, for every content string (a fact about any domain name without a
newline, in particular all eight configured ones). -/
theorem pkgSub_idem {d : List Char} (hd : '\n' ∉ d) (s : List Char) :
    pkgSub d (pkgSub d s) = pkgSub d s :=
  pkgScanF_of_noMatch (pkgRepl d) (pkgSub d s) true (pkgSub d s).length le_rfl
    (noMatch_scan hd s.length s true le_rfl)

/-! ### Line-wise characterization of the move-stage rewrite -/

theorem beq_nl_false {c : Char} (h : c ≠ '\n') : (c == '\n') = false := by
  simpa using h

theorem matchPkgDecl_nl (z : List Char) : matchPkgDecl ('\n' :: z) = none := rfl

theorem pkgScanF_copy_all (rep : List Char) {u : List Char} {f : Nat}
    (hf : u.length ≤ f) (hnl : ∀ c ∈ u, c ≠ '\n') :
    pkgScanF rep f false u = u := by
  have h0 := pkgScanF_copy rep u [] f 0 (by simpa using hf) (by simp) hnl
  rw [show pkgScanF rep 0 false ([] : List Char) = [] from rfl] at h0
  simpa using h0

theorem pkgScanF_nl_cons (rep : List Char) (J : List Char) :
    pkgScanF rep (J.length + 1) false ('\n' :: J) =
      '\n' :: pkgScanF rep J.length true J := rfl

theorem settles_cases {l : List Char} (h : settles l = true) :
    runP mInit l = .failed ∨ ∃ r, runP mInit l = .doneAt r := by
  unfold settles at h
  cases hp : runP mInit l with
  | failed => exact Or.inl rfl
  | doneAt r => exact Or.inr ⟨r, rfl⟩
  | alive σ => rw [hp] at h; cases h

/-- The scanner acts line by line: on content assembled from newline-free
lines on which the match attempt resolves locally, each line is transformed
independently by `lineOut`. -/
theorem pkgScanF_lines (rep : List Char) :
    ∀ lines f, (joinNl lines).length ≤ f →
      (∀ l ∈ lines, ∀ c ∈ l, c ≠ '\n') →
      (∀ l ∈ lines, l = [] ∨ settles l = true) →
      pkgScanF rep f true (joinNl lines) = joinNl (lines.map (lineOut rep)) := by
  intro lines
  induction lines with
  | nil => intro f _ _ _; cases f <;> rfl
  | cons l rest ih =>
    intro f hf h1 h2
    cases rest with
    | nil =>
      show pkgScanF rep f true (joinNl [l]) = joinNl [lineOut rep l]
      cases l with
      | nil => cases f <;> rfl
      | cons c l2 =>
        have hc : (c == '\n') = false := beq_nl_false (h1 (c :: l2) (by simp) c (by simp))
        have hlen : (c :: l2).length ≤ f := by simpa [joinNl] using hf
        rcases h2 (c :: l2) (by simp) with hnil | hs
        · simp at hnil
        · rcases settles_cases hs with hp | ⟨r, hp⟩
          · have hmn : matchPkgDecl (c :: l2) = none := runM_of_runP_failed hp
            cases f with
            | zero => simp at hlen
            | succ f =>
              show pkgScanF rep (f + 1) true (c :: l2) = lineOut rep (c :: l2)
              simp only [pkgScanF, hmn, lineOut, hc]
              rw [pkgScanF_copy_all rep (by simp at hlen; omega)
                (fun x hx => h1 (c :: l2) (by simp) x (by simp [hx]))]
          · have hms : matchPkgDecl (c :: l2) = some r := runM_of_runP_doneAt hp
            have hrlen := runM_length hms
            obtain ⟨m, hm⟩ := runP_doneAt_split hp
            cases f with
            | zero => simp at hlen
            | succ f =>
              show pkgScanF rep (f + 1) true (c :: l2) = lineOut rep (c :: l2)
              simp only [pkgScanF, hms, lineOut]
              congr 1
              refine pkgScanF_copy_all rep (by simp at hlen hrlen; omega) ?_
              intro x hx
              exact h1 (c :: l2) (by simp) x (by rw [hm]; exact List.mem_append.mpr (Or.inr hx))
    | cons r0 rs =>
      have hJ : joinNl (l :: r0 :: rs) = l ++ '\n' :: joinNl (r0 :: rs) := by
        cases l <;> rfl
      have hJm : joinNl ((l :: r0 :: rs).map (lineOut rep)) =
          lineOut rep l ++ '\n' :: joinNl ((r0 :: rs).map (lineOut rep)) := by
        simp only [List.map]
        rfl
      have hrest1 : ∀ x ∈ r0 :: rs, ∀ c ∈ x, c ≠ '\n' :=
        fun x hx => h1 x (by simp [hx])
      have hrest2 : ∀ x ∈ r0 :: rs, x = [] ∨ settles x = true :=
        fun x hx => h2 x (by simp [hx])
      rw [hJ, hJm]
      cases l with
      | nil =>
        have hlen : ('\n' :: joinNl (r0 :: rs)).length ≤ f := by simpa using hf
        cases f with
        | zero => simp at hlen
        | succ f =>
          show pkgScanF rep (f + 1) true ('\n' :: joinNl (r0 :: rs)) = _
          simp only [pkgScanF, matchPkgDecl_nl]
          rw [show (('\n' : Char) == '\n') = true from rfl]
          rw [ih f (by simp at hlen; omega) hrest1 hrest2]
          rfl
      | cons c l2 =>
        have hc : (c == '\n') = false := beq_nl_false (h1 (c :: l2) (by simp) c (by simp))
        have hlen : ((c :: l2) ++ '\n' :: joinNl (r0 :: rs)).length ≤ f := by
          rw [hJ] at hf; exact hf
        rcases h2 (c :: l2) (by simp) with hnil | hs
        · simp at hnil
        · rcases settles_cases hs with hp | ⟨r, hp⟩
          · have hmn : matchPkgDecl (c :: (l2 ++ '\n' :: joinNl (r0 :: rs))) = none := by
              have := runM_append mInit (c :: l2) ('\n' :: joinNl (r0 :: rs))
              rw [hp] at this
              simpa [matchPkgDecl] using this
            have hmnl : matchPkgDecl (c :: l2) = none := runM_of_runP_failed hp
            cases f with
            | zero => simp at hlen
            | succ f =>
              show pkgScanF rep (f + 1) true (c :: (l2 ++ '\n' :: joinNl (r0 :: rs))) = _
              simp only [pkgScanF, hmn, hc, lineOut, hmnl]
              rw [pkgScanF_copy rep l2 ('\n' :: joinNl (r0 :: rs)) f
                ((joinNl (r0 :: rs)).length + 1)
                (by simp at hlen ⊢; omega) (by simp)
                (fun x hx => h1 (c :: l2) (by simp) x (by simp [hx]))]
              rw [pkgScanF_nl_cons, ih _ le_rfl hrest1 hrest2]
              simp
          · have hms : matchPkgDecl (c :: (l2 ++ '\n' :: joinNl (r0 :: rs)))
                = some (r ++ '\n' :: joinNl (r0 :: rs)) := by
              have := runM_append mInit (c :: l2) ('\n' :: joinNl (r0 :: rs))
              rw [hp] at this
              simpa [matchPkgDecl] using this
            have hmsl : matchPkgDecl (c :: l2) = some r := runM_of_runP_doneAt hp
            have hrlen := runM_length hmsl
            obtain ⟨m, hm⟩ := runP_doneAt_split hp
            have hrnl : ∀ x ∈ r, x ≠ '\n' := fun x hx =>
              h1 (c :: l2) (by simp) x (by rw [hm]; exact List.mem_append.mpr (Or.inr hx))
            cases f with
            | zero => simp at hlen
            | succ f =>
              show pkgScanF rep (f + 1) true (c :: (l2 ++ '\n' :: joinNl (r0 :: rs))) = _
              simp only [pkgScanF, hms, lineOut, hmsl]
              rw [pkgScanF_copy rep r ('\n' :: joinNl (r0 :: rs)) f
                ((joinNl (r0 :: rs)).length + 1)
                (by simp at hlen hrlen ⊢; omega) (by simp) hrnl]
              rw [pkgScanF_nl_cons, ih _ le_rfl hrest1 hrest2]
              simp

/-- The move-stage rewrite acts independently on each line of the content. -/
theorem pkgSub_linewise (d : List Char) (lines : List (List Char))
    (h1 : ∀ l ∈ lines, ∀ c ∈ l, c ≠ '\n')
    (h2 : ∀ l ∈ lines, l = [] ∨ settles l = true) :
    pkgSub d (joinNl lines) = joinNl (lines.map (lineOut (pkgRepl d))) :=
  pkgScanF_lines (pkgRepl d) lines _ le_rfl h1 h2

/-! ### Claims C1 and C10 -/

/-- C1, counterexample: on content with two line-anchored old-flat-package
declarations, the move-stage rewrite (`re.sub` with default `count=0`)
substitutes BOTH, so the claim that exactly one substitution (the first) is
applied with every other byte unchanged is false. -/
theorem C1_counterexample :
    pkgSubStr "customer"
        "package com.meatrics.pricing;\npackage com.meatrics.pricing;\n" =
      "package com.meatrics.pricing.customer;\npackage com.meatrics.pricing.customer;\n" ∧
    pkgSubStr "customer"
        "package com.meatrics.pricing;\npackage com.meatrics.pricing;\n" ≠
      "package com.meatrics.pricing.customer;\npackage com.meatrics.pricing;\n" := by
  constructor
  · decide
  · decide

/-- C1, amended: for content assembled from newline-free lines on which the
match attempt resolves locally, the move-stage rewrite replaces EVERY
line-anchored declaration of the old flat package — each becoming exactly
`package com.meatrics.pricing.<domain>;` followed by that line's remainder —
and every line without such a declaration is byte-identical. -/
theorem C1_move_rewrite_every_decl (d : List Char) (lines : List (List Char))
    (h1 : ∀ l ∈ lines, ∀ c ∈ l, c ≠ '\n')
    (h2 : ∀ l ∈ lines, l = [] ∨ settles l = true) :
    pkgSub d (joinNl lines) = joinNl (lines.map (lineOut (pkgRepl d))) ∧
    (∀ l r, matchPkgDecl l = some r → lineOut (pkgRepl d) l = pkgRepl d ++ r) ∧
    (∀ l, matchPkgDecl l = none → lineOut (pkgRepl d) l = l) := by
  refine ⟨pkgSub_linewise d lines h1 h2, ?_, ?_⟩
  · intro l r hm; simp [lineOut, hm]
  · intro l hm; simp [lineOut, hm]

theorem C1_witness :
    pkgSub "customer".toList
        (joinNl ["package com.meatrics.pricing;".toList, "class Customer".toList]) =
      joinNl (["package com.meatrics.pricing;".toList, "class Customer".toList].map
        (lineOut (pkgRepl "customer".toList))) ∧
    (∀ l r, matchPkgDecl l = some r →
      lineOut (pkgRepl "customer".toList) l = pkgRepl "customer".toList ++ r) ∧
    (∀ l, matchPkgDecl l = none → lineOut (pkgRepl "customer".toList) l = l) :=
  C1_move_rewrite_every_decl "customer".toList
    ["package com.meatrics.pricing;".toList, "class Customer".toList]
    (by decide) (by decide)

/-- C10: the substitution pattern fails on every string starting with a
replacement `package com.meatrics.pricing.<domain>;` (after the path literal
it finds `.` where it requires optional whitespace then `;`), so it never
matches a domain-qualified declaration; consequently applying the move-stage
content rewrite to already-rewritten content changes nothing — the
substitution is idempotent on any file content. -/
theorem C10_pattern_never_requalifies_idempotent :
    (∀ d w : List Char, matchPkgDecl (pkgRepl d ++ w) = none) ∧
    (∀ d s : List Char, '\n' ∉ d → pkgSub d (pkgSub d s) = pkgSub d s) :=
  ⟨matchPkgDecl_pkgRepl, fun _ s hd => pkgSub_idem hd s⟩

theorem C10_witness :
    matchPkgDecl "package com.meatrics.pricing.customer;".toList = none ∧
    ('\n' ∉ "customer".toList ∧
      pkgSub "customer".toList (pkgSub "customer".toList
          "package com.meatrics.pricing;\nclass A".toList) =
        pkgSub "customer".toList "package com.meatrics.pricing;\nclass A".toList) := by
  constructor
  · have h0 := C10_pattern_never_requalifies_idempotent.1 "customer".toList []
    simpa [pkgRepl_customer] using h0
  · exact ⟨by decide,
      C10_pattern_never_requalifies_idempotent.2 "customer".toList _ (by decide)⟩

/-! ### Substring lemmas -/

theorem pfxB_iff {p s : List Char} : pfxB p s = true ↔ ∃ t, s = p ++ t := by
  induction p generalizing s with
  | nil => simp [pfxB]
  | cons a ps ih =>
    cases s with
    | nil => simp [pfxB]
    | cons c cs =>
      simp only [pfxB, Bool.and_eq_true, decide_eq_true_eq, ih]
      constructor
      · rintro ⟨h1, t, ht⟩
        exact ⟨t, by simp [h1, ht]⟩
      · rintro ⟨t, ht⟩
        injection ht with h1 h2
        exact ⟨h1.symm, t, h2⟩

theorem pfxB_self_append (p t : List Char) : pfxB p (p ++ t) = true :=
  pfxB_iff.mpr ⟨t, rfl⟩

theorem pfxB_length {p s : List Char} (h : pfxB p s = true) : p.length ≤ s.length := by
  obtain ⟨t, ht⟩ := pfxB_iff.mp h
  simp [ht]

theorem pfxB_take {p s : List Char} (h : pfxB p s = true) : s.take p.length = p := by
  obtain ⟨t, ht⟩ := pfxB_iff.mp h
  simp [ht]

theorem pfxB_drop {p s : List Char} (h : pfxB p s = true) :
    s = p ++ s.drop p.length := by
  obtain ⟨t, ht⟩ := pfxB_iff.mp h
  simp [ht]

theorem pfxB_append_cases : ∀ (u p v : List Char),
    pfxB p (u ++ v) =
      if p.length ≤ u.length then pfxB p u
      else pfxB u p && pfxB (p.drop u.length) v := by
  intro u
  induction u with
  | nil =>
    intro p v
    cases p with
    | nil => simp [pfxB]
    | cons a ps => simp [pfxB]
  | cons b us ih =>
    intro p v
    cases p with
    | nil => simp [pfxB]
    | cons a ps =>
      by_cases hab : a = b
      · subst hab
        have l1 : pfxB (a :: ps) (a :: (us ++ v)) = pfxB ps (us ++ v) := by simp [pfxB]
        have l2 : pfxB (a :: ps) (a :: us) = pfxB ps us := by simp [pfxB]
        have l3 : pfxB (a :: us) (a :: ps) = pfxB us ps := by simp [pfxB]
        show pfxB (a :: ps) (a :: (us ++ v)) = _
        rw [l1, ih ps v]
        by_cases hl : ps.length ≤ us.length
        · rw [if_pos hl, if_pos (by simpa using hl), l2]
        · rw [if_neg hl, if_neg (by simpa using hl), l3]
          rfl
      · have l1 : pfxB (a :: ps) (b :: (us ++ v)) = false := by simp [pfxB, hab]
        have l2 : pfxB (a :: ps) (b :: us) = false := by simp [pfxB, hab]
        have l3 : pfxB (b :: us) (a :: ps) = false := by
          simp only [pfxB, Bool.and_eq_false_iff]
          exact Or.inl (by simp; exact fun h => absurd h.symm hab)
        show pfxB (a :: ps) (b :: (us ++ v)) = _
        rw [l1]
        by_cases hl : (a :: ps).length ≤ (b :: us).length
        · rw [if_pos hl, l2]
        · rw [if_neg hl, l3, Bool.false_and]

theorem occB_iff {pat s : List Char} : occB pat s = true ↔ ∃ a b, s = a ++ pat ++ b := by
  induction s with
  | nil =>
    simp only [occB, List.isEmpty_iff]
    constructor
    · intro h; exact ⟨[], [], by simp [h]⟩
    · rintro ⟨a, b, hab⟩
      rcases List.append_eq_nil.mp hab.symm with ⟨h1, h2⟩
      exact (List.append_eq_nil.mp h1).2
  | cons c cs ih =>
    simp only [occB, Bool.or_eq_true, ih]
    constructor
    · rintro (h | ⟨a, b, hab⟩)
      · obtain ⟨t, ht⟩ := pfxB_iff.mp h
        exact ⟨[], t, by simp [ht]⟩
      · exact ⟨c :: a, b, by simp [hab]⟩
    · rintro ⟨a, b, hab⟩
      cases a with
      | nil =>
        refine Or.inl (pfxB_iff.mpr ⟨b, by simpa using hab⟩)
      | cons a1 as =>
        injection hab with h1 h2
        exact Or.inr ⟨as, b, by simpa using h2⟩

theorem occB_of_pfxB {pat s : List Char} (h : pfxB pat s = true) : occB pat s = true := by
  obtain ⟨t, ht⟩ := pfxB_iff.mp h
  exact occB_iff.mpr ⟨[], t, by simp [ht]⟩

theorem occB_append_right {pat : List Char} (x : List Char) {y : List Char}
    (h : occB pat y = true) : occB pat (x ++ y) = true := by
  obtain ⟨a, b, hab⟩ := occB_iff.mp h
  exact occB_iff.mpr ⟨x ++ a, b, by simp [hab]⟩

theorem occB_append_left {pat : List Char} {x : List Char} (y : List Char)
    (h : occB pat x = true) : occB pat (x ++ y) = true := by
  obtain ⟨a, b, hab⟩ := occB_iff.mp h
  exact occB_iff.mpr ⟨a, b ++ y, by simp [hab]⟩

theorem occB_tail_false {pat : List Char} {c : Char} {cs : List Char}
    (h : occB pat (c :: cs) = false) : occB pat cs = false := by
  cases hcc : occB pat cs with
  | false => rfl
  | true =>
    rw [show c :: cs = [c] ++ cs from rfl] at h
    rw [occB_append_right [c] hcc] at h
    cases h

theorem occB_drop_false {pat : List Char} : ∀ {s : List Char} (n : Nat),
    occB pat s = false → occB pat (s.drop n) = false := by
  intro s n
  induction n generalizing s with
  | zero => simpa using id
  | succ n ih =>
    intro h
    cases s with
    | nil => simpa using h
    | cons c cs => exact ih (occB_tail_false h)

/-- An occurrence in `A ++ B` starts inside `A` (a nonempty suffix of `A`
prefix-matches against the junction) or lies inside `B`. -/
theorem occB_append_elim {pat A B : List Char} (h : occB pat (A ++ B) = true) :
    (∃ a h2, a ≠ [] ∧ h2 ++ a = A ∧ pfxB pat (a ++ B) = true) ∨ occB pat B = true := by
  induction A with
  | nil => exact Or.inr h
  | cons c As ih =>
    rw [List.cons_append] at h
    simp only [occB, Bool.or_eq_true] at h
    rcases h with h | h
    · exact Or.inl ⟨c :: As, [], by simp, rfl, by simpa using h⟩
    · rcases ih h with ⟨a, h2, hne, hsplit, hpfx⟩ | h
      · exact Or.inl ⟨a, c :: h2, hne, by simp [hsplit], hpfx⟩
      · exact Or.inr h

/-! ### `str.replace` lemmas -/

theorem replApp_fuel {pat rep : List Char} (hp : pat ≠ []) :
    ∀ f g s, s.length ≤ f → s.length ≤ g → replApp pat rep f s = replApp pat rep g s := by
  intro f
  induction f with
  | zero =>
    intro g s hf _
    have hs : s = [] := List.eq_nil_of_length_eq_zero (Nat.le_zero.mp hf)
    subst hs
    cases g <;> rfl
  | succ f ih =>
    intro g s hf hg
    have hp1 : 1 ≤ pat.length := by
      cases pat with
      | nil => exact absurd rfl hp
      | cons _ _ => simp
    cases s with
    | nil => cases g <;> rfl
    | cons c cs =>
      cases g with
      | zero => simp at hg
      | succ g =>
        simp only [replApp]
        by_cases hpf : pfxB pat (c :: cs) = true
        · rw [if_pos hpf, if_pos hpf]
          rw [ih g _ (by simp at hf ⊢; omega) (by simp at hg ⊢; omega)]
        · rw [if_neg hpf, if_neg hpf]
          rw [ih g cs (by simp at hf; omega) (by simp at hg; omega)]

theorem replApp_of_not_occ {pat rep : List Char} :
    ∀ f s, occB pat s = false → replApp pat rep f s = s := by
  intro f
  induction f with
  | zero => intro s _; rfl
  | succ f ih =>
    intro s h
    cases s with
    | nil => rfl
    | cons c cs =>
      simp only [occB, Bool.or_eq_false_iff] at h
      simp only [replApp, h.1, Bool.false_eq_true, if_false]
      rw [ih cs h.2]

theorem replaceAll_of_not_occ {pat rep s : List Char} (h : occB pat s = false) :
    replaceAll pat rep s = s :=
  replApp_of_not_occ s.length s h

/-! ### Occurrence creation is impossible under overlap conditions

`R1`: the watched pattern does not occur in the inserted replacement;
`R2`: the replacement does not occur in the watched pattern;
`R3`: no nonempty proper suffix of the watched pattern is a prefix of the
replacement; `R4`: no nonempty suffix of the replacement is a prefix of the
watched pattern.  Under these, `str.replace old → new` cannot create a new
occurrence of the watched pattern `pat`. -/

theorem replApp_pfx_false {pat : List Char} (old new : List Char)
    (R1 : occB pat new = false)
    (R2 : occB new pat = false)
    (R3 : ∀ a b, pat = a ++ b → a ≠ [] → b ≠ [] → pfxB b new = false)
    (R4 : ∀ a b, new = a ++ b → b ≠ [] → pfxB b pat = false) :
    ∀ f s u, pfxB pat (u ++ s) = false → pfxB pat (u ++ replApp old new f s) = false := by
  intro f
  induction f with
  | zero => intro s u h; exact h
  | succ f ih =>
    intro s u h
    cases s with
    | nil => exact h
    | cons c cs =>
      by_cases hpf : pfxB old (c :: cs) = true
      · simp only [replApp, if_pos hpf]
        rw [pfxB_append_cases u pat (new ++ replApp old new f ((c :: cs).drop old.length))]
        rw [pfxB_append_cases u pat (c :: cs)] at h
        by_cases hl : pat.length ≤ u.length
        · rw [if_pos hl] at h ⊢
          exact h
        · rw [if_neg hl] at h ⊢
          cases hup : pfxB u pat with
          | false => simp
          | true =>
            rw [Bool.true_and]
            have hp2ne : pat.drop u.length ≠ [] := by
              have := List.length_drop u.length pat
              intro hx
              rw [hx] at this
              simp at this
              omega
            rw [pfxB_append_cases new (pat.drop u.length)
              (replApp old new f ((c :: cs).drop old.length))]
            by_cases hl2 : (pat.drop u.length).length ≤ new.length
            · rw [if_pos hl2]
              cases u with
              | nil =>
                simp only [List.length_nil, List.drop_zero]
                cases hx : pfxB pat new with
                | false => rfl
                | true => rw [occB_of_pfxB hx] at R1; cases R1
              | cons u1 us =>
                exact R3 (u1 :: us) (pat.drop (u1 :: us).length)
                  (pfxB_drop hup) (by simp) hp2ne
            · rw [if_neg hl2]
              cases hx : pfxB new (pat.drop u.length) with
              | false => simp
              | true =>
                exfalso
                have hsplit : pat = u ++ (new ++ (pat.drop u.length).drop new.length) := by
                  have h1 := pfxB_drop hup
                  have h2 := pfxB_drop hx
                  rw [h1]
                  rw [h2]
                  simp
                rw [← List.append_assoc] at hsplit
                rw [occB_iff.mpr ⟨u, (pat.drop u.length).drop new.length, hsplit⟩] at R2
                cases R2
      · simp only [replApp, if_neg hpf]
        have h2 : pfxB pat ((u ++ [c]) ++ cs) = false := by
          rw [List.append_assoc]
          simpa using h
        have := ih cs (u ++ [c]) h2
        rw [List.append_assoc] at this
        simpa using this

theorem replApp_occ_false {pat old new : List Char} (hold : old ≠ [])
    (R1 : occB pat new = false)
    (R2 : occB new pat = false)
    (R3 : ∀ a b, pat = a ++ b → a ≠ [] → b ≠ [] → pfxB b new = false)
    (R4 : ∀ a b, new = a ++ b → b ≠ [] → pfxB b pat = false) :
    ∀ f s, s.length ≤ f → (pat = old ∨ occB pat s = false) →
      occB pat (replApp old new f s) = false := by
  intro f
  induction f with
  | zero =>
    intro s hf hd
    have hs : s = [] := List.eq_nil_of_length_eq_zero (Nat.le_zero.mp hf)
    subst hs
    rcases hd with hd | hd
    · subst hd
      simpa [occB, List.isEmpty_iff] using hold
    · exact hd
  | succ f ih =>
    intro s hf hd
    have hpatne : pat ≠ [] := by
      rcases hd with hd | hd
      · rw [hd]; exact hold
      · intro hx
        rw [hx] at hd
        cases s with
        | nil => simp [occB] at hd
        | cons c cs => simp [occB, pfxB] at hd
    have hold1 : 1 ≤ old.length := by
      cases old with
      | nil => exact absurd rfl hold
      | cons _ _ => simp
    cases s with
    | nil => simpa [occB, List.isEmpty_iff] using hpatne
    | cons c cs =>
      by_cases hpf : pfxB old (c :: cs) = true
      · simp only [replApp, if_pos hpf]
        cases hocc : occB pat (new ++ replApp old new f ((c :: cs).drop old.length)) with
        | false => rfl
        | true =>
          exfalso
          rcases occB_append_elim hocc with ⟨a, h2, hne, hsplit, hpfx⟩ | hocc2
          · rw [pfxB_append_cases a pat
              (replApp old new f ((c :: cs).drop old.length))] at hpfx
            by_cases hl : pat.length ≤ a.length
            · rw [if_pos hl] at hpfx
              have hn : occB pat new = true := by
                obtain ⟨t, ht⟩ := pfxB_iff.mp hpfx
                refine occB_iff.mpr ⟨h2, t, ?_⟩
                rw [← hsplit, ht, List.append_assoc]
              rw [hn] at R1
              cases R1
            · rw [if_neg hl] at hpfx
              have hap : pfxB a pat = true := by
                cases hx : pfxB a pat with
                | true => rfl
                | false => rw [hx, Bool.false_and] at hpfx; cases hpfx
              rw [R4 h2 a hsplit.symm hne] at hap
              cases hap
          · have hrest : pat = old ∨ occB pat ((c :: cs).drop old.length) = false := by
              rcases hd with hd | hd
              · exact Or.inl hd
              · exact Or.inr (occB_drop_false _ hd)
            have hlen : ((c :: cs).drop old.length).length ≤ f := by
              simp at hf ⊢
              omega
            rw [ih _ hlen hrest] at hocc2
            cases hocc2
      · simp only [replApp, if_neg hpf]
        have hcs : pat = old ∨ occB pat cs = false := by
          rcases hd with hd | hd
          · exact Or.inl hd
          · exact Or.inr (occB_tail_false hd)
        have htail : occB pat (replApp old new f cs) = false :=
          ih cs (by simp at hf; omega) hcs
        have hpfxcs : pfxB pat ([c] ++ cs) = false := by
          show pfxB pat (c :: cs) = false
          rcases hd with hd | hd
          · rw [hd]
            cases hx : pfxB old (c :: cs) with
            | false => rfl
            | true => rw [hx] at hpf; cases hpf rfl
          · simp only [occB, Bool.or_eq_false_iff] at hd
            exact hd.1
        have hpfx := replApp_pfx_false old new R1 R2 R3 R4 f cs [c] hpfxcs
        have h1 : pfxB pat (c :: replApp old new f cs) = false := hpfx
        simp [occB, h1, htail]

/-! ### Shape facts and the alignment argument

Every import-like string is `impPfx ++ x` with `x` space-free, and `impPfx`
contains exactly one space; so one such string can occur inside another only
at offset 0. -/

theorem table_good : ∀ p ∈ CLASS_TO_DOMAIN,
    goodClass p.1.toList = true ∧ goodDomain p.2.toList = true := by decide

theorem upper_ne_lower {a b : Char} (ha : isUpperCh a = true) (hb : isLowerCh b = true) :
    a ≠ b := by
  intro he
  subst he
  simp only [isUpperCh, Bool.and_eq_true, decide_eq_true_eq] at ha
  simp only [isLowerCh, Bool.and_eq_true, decide_eq_true_eq] at hb
  exact absurd (le_trans hb.1 ha.2) (by decide)

theorem upperCh_ne {c x : Char} (h : isUpperCh c = true) (hx : isUpperCh x = false) :
    c ≠ x := by
  intro he
  rw [he, hx] at h
  cases h

theorem lowerCh_ne {c x : Char} (h : isLowerCh c = true) (hx : isLowerCh x = false) :
    c ≠ x := by
  intro he
  rw [he, hx] at h
  cases h

theorem alnumCh_ne {c x : Char} (h : isAlnumCh c = true) (hx : isAlnumCh x = false) :
    c ≠ x := by
  intro he
  rw [he, hx] at h
  cases h

theorem goodClass_spec {cn : List Char} (h : goodClass cn = true) :
    cn ≠ [] ∧ (∀ c ∈ cn, isAlnumCh c = true) ∧ isUpperCh (cn.headD ' ') = true := by
  simp only [goodClass, Bool.and_eq_true, Bool.not_eq_true', List.all_eq_true] at h
  refine ⟨?_, h.1.2, h.2⟩
  intro hx
  subst hx
  simp at h

theorem goodDomain_spec {d : List Char} (h : goodDomain d = true) :
    d ≠ [] ∧ ∀ c ∈ d, isLowerCh c = true := by
  simp only [goodDomain, Bool.and_eq_true, Bool.not_eq_true', List.all_eq_true] at h
  refine ⟨?_, h.2⟩
  intro hx
  subst hx
  simp at h

theorem alnum_no_semi {cn : List Char} (h : ∀ c ∈ cn, isAlnumCh c = true) : ';' ∉ cn :=
  fun hm => absurd rfl (alnumCh_ne (h ';' hm) (by decide))

theorem alnum_no_space {cn : List Char} (h : ∀ c ∈ cn, isAlnumCh c = true) : ' ' ∉ cn :=
  fun hm => absurd rfl (alnumCh_ne (h ' ' hm) (by decide))

theorem alnum_no_nl {cn : List Char} (h : ∀ c ∈ cn, isAlnumCh c = true) : '\n' ∉ cn :=
  fun hm => absurd rfl (alnumCh_ne (h '\n' hm) (by decide))

theorem lower_no_semi {d : List Char} (h : ∀ c ∈ d, isLowerCh c = true) : ';' ∉ d :=
  fun hm => absurd rfl (lowerCh_ne (h ';' hm) (by decide))

theorem lower_no_space {d : List Char} (h : ∀ c ∈ d, isLowerCh c = true) : ' ' ∉ d :=
  fun hm => absurd rfl (lowerCh_ne (h ' ' hm) (by decide))

theorem lower_no_nl {d : List Char} (h : ∀ c ∈ d, isLowerCh c = true) : '\n' ∉ d :=
  fun hm => absurd rfl (lowerCh_ne (h '\n' hm) (by decide))

theorem impPfx_eq : impPfx = impKw ++ ' ' :: impPath := rfl

theorem count_space_impPfx : List.count ' ' impPfx = 1 := by decide

theorem split_at_unique {x : Char} : ∀ {u u2 v v2 : List Char},
    u ++ x :: v = u2 ++ x :: v2 → x ∉ u → x ∉ u2 → u = u2 ∧ v = v2 := by
  intro u
  induction u with
  | nil =>
    intro u2 v v2 h hu hu2
    cases u2 with
    | nil =>
      injection h with _ h2
      exact ⟨rfl, h2⟩
    | cons c us2 =>
      injection h with h1 _
      exact absurd (h1 ▸ List.mem_cons_self c us2) hu2
  | cons c us ih =>
    intro u2 v v2 h hu hu2
    cases u2 with
    | nil =>
      injection h with h1 _
      exact absurd (h1.symm ▸ List.mem_cons_self c us) hu
    | cons c2 us2 =>
      injection h with h1 h2
      obtain ⟨e1, e2⟩ := ih h2 (fun hm => hu (List.mem_cons_of_mem c hm))
        (fun hm => hu2 (List.mem_cons_of_mem c2 hm))
      exact ⟨by rw [h1, e1], e2⟩

theorem count_space_zero {l : List Char} (h : List.count ' ' l = 0) : ' ' ∉ l :=
  List.count_eq_zero.mp h

/-- An import-shaped string occurs in another only at offset 0. -/
theorem occ_impPfx_align {x y : List Char} (hx : ' ' ∉ x) (hy : ' ' ∉ y)
    (hocc : occB (impPfx ++ x) (impPfx ++ y) = true) :
    pfxB (impPfx ++ x) (impPfx ++ y) = true := by
  obtain ⟨a, b, hab⟩ := occB_iff.mp hocc
  have hcount : List.count ' ' (impPfx ++ y) =
      List.count ' ' a + (List.count ' ' (impPfx ++ x) + List.count ' ' b) := by
    rw [hab]
    simp [List.count_append]
    omega
  have h1 : List.count ' ' (impPfx ++ y) = 1 := by
    rw [List.count_append, count_space_impPfx, List.count_eq_zero.mpr hy]
  have h2 : List.count ' ' (impPfx ++ x) = 1 := by
    rw [List.count_append, count_space_impPfx, List.count_eq_zero.mpr hx]
  rw [h1, h2] at hcount
  have ha0 : ' ' ∉ a := count_space_zero (by omega)
  have hL : impKw ++ ' ' :: (impPath ++ y) = (a ++ impKw) ++ ' ' :: (impPath ++ x ++ b) := by
    have hre : impPfx ++ y = a ++ (impPfx ++ x) ++ b := hab
    rw [impPfx_eq] at hre
    simpa [List.append_assoc] using hre
  have hkw : ' ' ∉ impKw := by decide
  have hanokw : ' ' ∉ a ++ impKw := by
    intro hm
    rcases List.mem_append.mp hm with hm | hm
    · exact ha0 hm
    · exact hkw hm
  obtain ⟨he, _⟩ := split_at_unique hL hkw hanokw
  have hlen : impKw.length = a.length + impKw.length := by
    conv_lhs => rw [he]
    simp
  have ha : a = [] := List.eq_nil_of_length_eq_zero (by omega)
  subst ha
  refine pfxB_iff.mpr ⟨b, ?_⟩
  simpa [List.append_assoc] using hab

theorem pfxB_cancel (w : List Char) : ∀ x y, pfxB (w ++ x) (w ++ y) = pfxB x y := by
  induction w with
  | nil => intro x y; rfl
  | cons c ws ih =>
    intro x y
    show (decide (c = c) && pfxB (ws ++ x) (ws ++ y)) = pfxB x y
    simp [ih]

/-! ### The import strings in canonical shapes -/

theorem oldImp_eq (cn : List Char) : oldImp cn = impPfx ++ (cn ++ [';']) :=
  List.append_assoc _ _ _

theorem newImp_eq (dom cn : List Char) :
    newImp dom cn = impPfx ++ (dom ++ '.' :: (cn ++ [';'])) :=
  List.append_assoc _ _ _

theorem wildcardImp_eq : wildcardImp = impPfx ++ ('*' :: [';']) := rfl

theorem oldImp_semi (cn : List Char) : oldImp cn = (impPfx ++ cn) ++ [';'] := rfl

theorem newImp_semi (dom cn : List Char) :
    newImp dom cn = ((impPfx ++ dom) ++ '.' :: cn) ++ [';'] := by
  show (impPfx ++ dom) ++ ('.' :: (cn ++ [';'])) = _
  simp

theorem wildcardImp_semi : wildcardImp = (impPfx ++ ['*']) ++ [';'] := rfl

theorem semi_not_impPfx : ';' ∉ impPfx := by decide

theorem oldImp_body_semi {cn : List Char} (h : ∀ c ∈ cn, isAlnumCh c = true) :
    ';' ∉ impPfx ++ cn := by
  intro hm
  rcases List.mem_append.mp hm with hm | hm
  · exact semi_not_impPfx hm
  · exact alnum_no_semi h hm

theorem newImp_body_semi {dom cn : List Char} (hd : ∀ c ∈ dom, isLowerCh c = true)
    (hc : ∀ c ∈ cn, isAlnumCh c = true) :
    ';' ∉ (impPfx ++ dom) ++ '.' :: cn := by
  intro hm
  rcases List.mem_append.mp hm with hm | hm
  · rcases List.mem_append.mp hm with hm | hm
    · exact semi_not_impPfx hm
    · exact lower_no_semi hd hm
  · rcases List.mem_cons.mp hm with hm | hm
    · cases hm
    · exact alnum_no_semi hc hm

theorem wildcard_body_semi : ';' ∉ impPfx ++ ['*'] := by decide

theorem oldImp_tail_space {cn : List Char} (h : ∀ c ∈ cn, isAlnumCh c = true) :
    ' ' ∉ cn ++ [';'] := by
  intro hm
  rcases List.mem_append.mp hm with hm | hm
  · exact alnum_no_space h hm
  · exact absurd hm (by decide)

theorem newImp_tail_space {dom cn : List Char} (hd : ∀ c ∈ dom, isLowerCh c = true)
    (hc : ∀ c ∈ cn, isAlnumCh c = true) :
    ' ' ∉ dom ++ '.' :: (cn ++ [';']) := by
  intro hm
  rcases List.mem_append.mp hm with hm | hm
  · exact lower_no_space hd hm
  · rcases List.mem_cons.mp hm with hm | hm
    · cases hm
    · exact oldImp_tail_space hc hm

theorem oldImp_no_nl {cn : List Char} (h : ∀ c ∈ cn, isAlnumCh c = true) :
    '\n' ∉ oldImp cn := by
  rw [oldImp_eq]
  intro hm
  rcases List.mem_append.mp hm with hm | hm
  · exact absurd hm (by decide)
  · rcases List.mem_append.mp hm with hm | hm
    · exact alnum_no_nl h hm
    · exact absurd hm (by decide)

theorem newImp_no_nl {dom cn : List Char} (hd : ∀ c ∈ dom, isLowerCh c = true)
    (hc : ∀ c ∈ cn, isAlnumCh c = true) :
    '\n' ∉ newImp dom cn := by
  rw [newImp_eq]
  intro hm
  rcases List.mem_append.mp hm with hm | hm
  · exact absurd hm (by decide)
  · rcases List.mem_append.mp hm with hm | hm
    · exact lower_no_nl hd hm
    · rcases List.mem_cons.mp hm with hm | hm
      · cases hm
      · rcases List.mem_append.mp hm with hm | hm
        · exact alnum_no_nl hc hm
        · exact absurd hm (by decide)

theorem wildcard_no_nl : '\n' ∉ wildcardImp := by decide

/-! ### Pairwise occurrence absence -/

theorem occ_old_new {ci cj dj : List Char}
    (hci : goodClass ci = true) (hcj : goodClass cj = true) (hdj : goodDomain dj = true) :
    occB (oldImp ci) (newImp dj cj) = false := by
  cases hocc : occB (oldImp ci) (newImp dj cj) with
  | false => rfl
  | true =>
    exfalso
    obtain ⟨hci1, hci2, hci3⟩ := goodClass_spec hci
    obtain ⟨_, hcj2, _⟩ := goodClass_spec hcj
    obtain ⟨hdj1, hdj2⟩ := goodDomain_spec hdj
    rw [oldImp_eq, newImp_eq] at hocc
    have hpfx := occ_impPfx_align (oldImp_tail_space hci2) (newImp_tail_space hdj2 hcj2) hocc
    rw [pfxB_cancel] at hpfx
    cases ci with
    | nil => exact hci1 rfl
    | cons a ci2 =>
      cases dj with
      | nil => exact hdj1 rfl
      | cons b dj2 =>
        have hab : a = b := by
          simp only [List.cons_append, pfxB, Bool.and_eq_true, decide_eq_true_eq] at hpfx
          exact hpfx.1
        have ha : isUpperCh a = true := by simpa using hci3
        have hb : isLowerCh b = true := hdj2 b (by simp)
        exact upper_ne_lower ha hb hab

theorem occ_new_old {ci cj dj : List Char}
    (hci : goodClass ci = true) (hcj : goodClass cj = true) (hdj : goodDomain dj = true) :
    occB (newImp dj cj) (oldImp ci) = false := by
  cases hocc : occB (newImp dj cj) (oldImp ci) with
  | false => rfl
  | true =>
    exfalso
    obtain ⟨hci1, hci2, hci3⟩ := goodClass_spec hci
    obtain ⟨_, hcj2, _⟩ := goodClass_spec hcj
    obtain ⟨hdj1, hdj2⟩ := goodDomain_spec hdj
    rw [oldImp_eq, newImp_eq] at hocc
    have hpfx := occ_impPfx_align (newImp_tail_space hdj2 hcj2) (oldImp_tail_space hci2) hocc
    rw [pfxB_cancel] at hpfx
    cases dj with
    | nil => exact hdj1 rfl
    | cons b dj2 =>
      cases ci with
      | nil => exact hci1 rfl
      | cons a ci2 =>
        have hab : b = a := by
          simp only [List.cons_append, pfxB, Bool.and_eq_true, decide_eq_true_eq] at hpfx
          exact hpfx.1
        have ha : isUpperCh a = true := by simpa using hci3
        have hb : isLowerCh b = true := hdj2 b (by simp)
        exact upper_ne_lower ha hb hab.symm

theorem occ_wild_new {cj dj : List Char}
    (hcj : goodClass cj = true) (hdj : goodDomain dj = true) :
    occB wildcardImp (newImp dj cj) = false := by
  cases hocc : occB wildcardImp (newImp dj cj) with
  | false => rfl
  | true =>
    exfalso
    obtain ⟨_, hcj2, _⟩ := goodClass_spec hcj
    obtain ⟨hdj1, hdj2⟩ := goodDomain_spec hdj
    rw [wildcardImp_eq, newImp_eq] at hocc
    have hpfx := occ_impPfx_align (by decide) (newImp_tail_space hdj2 hcj2) hocc
    rw [pfxB_cancel] at hpfx
    cases dj with
    | nil => exact hdj1 rfl
    | cons b dj2 =>
      have hab : '*' = b := by
        simp only [List.cons_append, pfxB, Bool.and_eq_true, decide_eq_true_eq] at hpfx
        exact hpfx.1
      have hb : isLowerCh b = true := hdj2 b (by simp)
      exact lowerCh_ne hb (by decide) hab.symm

theorem occ_new_wild {cj dj : List Char}
    (hcj : goodClass cj = true) (hdj : goodDomain dj = true) :
    occB (newImp dj cj) wildcardImp = false := by
  cases hocc : occB (newImp dj cj) wildcardImp with
  | false => rfl
  | true =>
    exfalso
    obtain ⟨_, hcj2, _⟩ := goodClass_spec hcj
    obtain ⟨hdj1, hdj2⟩ := goodDomain_spec hdj
    rw [wildcardImp_eq, newImp_eq] at hocc
    have hpfx := occ_impPfx_align (newImp_tail_space hdj2 hcj2) (by decide) hocc
    rw [pfxB_cancel] at hpfx
    cases dj with
    | nil => exact hdj1 rfl
    | cons b dj2 =>
      have hab : b = '*' := by
        simp only [List.cons_append, pfxB, Bool.and_eq_true, decide_eq_true_eq] at hpfx
        exact hpfx.1
      have hb : isLowerCh b = true := hdj2 b (by simp)
      exact lowerCh_ne hb (by decide) hab

theorem occ_old_wild {ci : List Char} (hci : goodClass ci = true) :
    occB (oldImp ci) wildcardImp = false := by
  cases hocc : occB (oldImp ci) wildcardImp with
  | false => rfl
  | true =>
    exfalso
    obtain ⟨hci1, hci2, hci3⟩ := goodClass_spec hci
    rw [wildcardImp_eq, oldImp_eq] at hocc
    have hpfx := occ_impPfx_align (oldImp_tail_space hci2) (by decide) hocc
    rw [pfxB_cancel] at hpfx
    cases ci with
    | nil => exact hci1 rfl
    | cons a ci2 =>
      have hab : a = '*' := by
        simp only [List.cons_append, pfxB, Bool.and_eq_true, decide_eq_true_eq] at hpfx
        exact hpfx.1
      have ha : isUpperCh a = true := by simpa using hci3
      exact upperCh_ne ha (by decide) hab

theorem occ_wild_old {ci : List Char} (hci : goodClass ci = true) :
    occB wildcardImp (oldImp ci) = false := by
  cases hocc : occB wildcardImp (oldImp ci) with
  | false => rfl
  | true =>
    exfalso
    obtain ⟨hci1, hci2, hci3⟩ := goodClass_spec hci
    rw [wildcardImp_eq, oldImp_eq] at hocc
    have hpfx := occ_impPfx_align (by decide) (oldImp_tail_space hci2) hocc
    rw [pfxB_cancel] at hpfx
    cases ci with
    | nil => exact hci1 rfl
    | cons a ci2 =>
      have hab : '*' = a := by
        simp only [List.cons_append, pfxB, Bool.and_eq_true, decide_eq_true_eq] at hpfx
        exact hpfx.1
      have ha : isUpperCh a = true := by simpa using hci3
      exact upperCh_ne ha (by decide) hab.symm

theorem alnum_semi_pfx_eq : ∀ {ci : List Char} {cj : List Char},
    (∀ c ∈ ci, isAlnumCh c = true) → (∀ c ∈ cj, isAlnumCh c = true) →
    pfxB (ci ++ [';']) (cj ++ [';']) = true → ci = cj := by
  intro ci
  induction ci with
  | nil =>
    intro cj _ h2 hp
    cases cj with
    | nil => rfl
    | cons b cj2 =>
      exfalso
      simp only [List.nil_append, List.cons_append, pfxB, Bool.and_eq_true,
        decide_eq_true_eq] at hp
      exact alnumCh_ne (h2 b (by simp)) (by decide) hp.1.symm
  | cons a ci2 ih =>
    intro cj h1 h2 hp
    cases cj with
    | nil =>
      exfalso
      simp only [List.cons_append, List.nil_append, pfxB, Bool.and_eq_true,
        decide_eq_true_eq] at hp
      exact alnumCh_ne (h1 a (by simp)) (by decide) hp.1
    | cons b cj2 =>
      simp only [List.cons_append, pfxB, Bool.and_eq_true, decide_eq_true_eq] at hp
      have he := ih (fun c hc => h1 c (by simp [hc])) (fun c hc => h2 c (by simp [hc])) hp.2
      rw [hp.1, he]

theorem occ_old_old {ci cj : List Char} (hne : ci ≠ cj)
    (hci : goodClass ci = true) (hcj : goodClass cj = true) :
    occB (oldImp ci) (oldImp cj) = false := by
  cases hocc : occB (oldImp ci) (oldImp cj) with
  | false => rfl
  | true =>
    exfalso
    obtain ⟨_, hci2, _⟩ := goodClass_spec hci
    obtain ⟨_, hcj2, _⟩ := goodClass_spec hcj
    rw [oldImp_eq, oldImp_eq] at hocc
    have hpfx := occ_impPfx_align (oldImp_tail_space hci2) (oldImp_tail_space hcj2) hocc
    rw [pfxB_cancel] at hpfx
    exact hne (alnum_semi_pfx_eq hci2 hcj2 hpfx)

/-! ### Suffix/prefix overlap exclusion via the terminating `;` -/

theorem split_last {x : Char} {s a b v : List Char} (hs : s = v ++ [x]) (hx : x ∉ v)
    (hab : s = a ++ b) (hb : b ≠ []) : ∃ w, b = w ++ [x] ∧ x ∉ w := by
  rcases List.eq_nil_or_concat b with hb0 | ⟨w, y, hw⟩
  · exact absurd hb0 hb
  · rw [List.concat_eq_append] at hw
    subst hw
    rw [hab] at hs
    have h2 : (a ++ w) ++ [y] = v ++ [x] := by
      rw [List.append_assoc]
      exact hs
    obtain ⟨h3, h4⟩ := List.append_inj' h2 (by simp)
    injection h4 with h5 _
    subst h5
    refine ⟨w, rfl, fun hm => hx ?_⟩
    rw [← h3]
    exact List.mem_append.mpr (Or.inr hm)

theorem pfx_semi_whole {b v : List Char} (hp : pfxB b (v ++ [';']) = true)
    (hv : ';' ∉ v) (hbw : ∃ w, b = w ++ [';']) : b = v ++ [';'] := by
  obtain ⟨w, hbw⟩ := hbw
  obtain ⟨t, ht⟩ := pfxB_iff.mp hp
  cases t with
  | nil => simpa using ht.symm
  | cons y t2 =>
    exfalso
    have hlb : b.length ≤ v.length := by
      have := congrArg List.length ht
      simp at this
      omega
    have hbv : b = v.take b.length := by
      have h1 : (v ++ [';']).take b.length = b := by
        rw [ht]
        simp
      rw [List.take_append_of_le_length hlb] at h1
      exact h1.symm
    have hsem : ';' ∈ b := by
      rw [hbw]
      exact List.mem_append.mpr (Or.inr (by simp))
    rw [hbv] at hsem
    exact hv ((List.take_sublist _ _).mem hsem)

/-- No nonempty proper suffix of `pat` is a prefix of `new`, when both end in
a unique `;` and `new` does not occur in `pat`. -/
theorem semi_R3 {pat new wp wn : List Char}
    (hpat : pat = wp ++ [';']) (hwp : ';' ∉ wp)
    (hnew : new = wn ++ [';']) (hwn : ';' ∉ wn)
    (hR2 : occB new pat = false) :
    ∀ a b, pat = a ++ b → a ≠ [] → b ≠ [] → pfxB b new = false := by
  intro a b hab _ hb
  cases hx : pfxB b new with
  | false => rfl
  | true =>
    exfalso
    obtain ⟨w, hbw, hw⟩ := split_last hpat hwp hab hb
    rw [hnew] at hx
    have hbeq : b = new := by
      rw [hnew]
      exact pfx_semi_whole hx hwn ⟨w, hbw⟩
    rw [hbeq] at hab
    rw [occB_iff.mpr ⟨a, [], by simp [hab]⟩] at hR2
    cases hR2

/-- No nonempty suffix of `new` is a prefix of `pat`, when both end in a
unique `;` and `pat` does not occur in `new`. -/
theorem semi_R4 {pat new wp wn : List Char}
    (hpat : pat = wp ++ [';']) (hwp : ';' ∉ wp)
    (hnew : new = wn ++ [';']) (hwn : ';' ∉ wn)
    (hR1 : occB pat new = false) :
    ∀ a b, new = a ++ b → b ≠ [] → pfxB b pat = false := by
  intro a b hab hb
  cases hx : pfxB b pat with
  | false => rfl
  | true =>
    exfalso
    obtain ⟨w, hbw, hw⟩ := split_last hnew hwn hab hb
    rw [hpat] at hx
    have hbeq : b = pat := by
      rw [hpat]
      exact pfx_semi_whole hx hwp ⟨w, hbw⟩
    rw [hbeq] at hab
    rw [occB_iff.mpr ⟨a, [], by simp [hab]⟩] at hR1
    cases hR1

/-! ### The wildcard replacement block (newline-joined imports) -/

theorem split_last2 {x : Char} {s a b v : List Char} (hs : s = v ++ [x])
    (hab : s = a ++ b) (hb : b ≠ []) : ∃ w, b = w ++ [x] := by
  rcases List.eq_nil_or_concat b with hb0 | ⟨w, y, hw⟩
  · exact absurd hb0 hb
  · rw [List.concat_eq_append] at hw
    subst hw
    rw [hab] at hs
    have h2 : (a ++ w) ++ [y] = v ++ [x] := by
      rw [List.append_assoc]
      exact hs
    obtain ⟨_, h4⟩ := List.append_inj' h2 (by simp)
    injection h4 with h5 _
    subst h5
    exact ⟨w, rfl⟩

theorem occ_joinNl {pat : List Char} (hnl : '\n' ∉ pat) (hne : pat ≠ []) :
    ∀ lines, occB pat (joinNl lines) = true → ∃ l ∈ lines, occB pat l = true := by
  intro lines
  induction lines with
  | nil =>
    intro h
    rw [joinNl] at h
    simp only [occB, List.isEmpty_iff] at h
    exact absurd h hne
  | cons l rest ih =>
    cases rest with
    | nil =>
      intro h
      exact ⟨l, by simp, by simpa [joinNl] using h⟩
    | cons r0 rs =>
      intro h
      rw [show joinNl (l :: r0 :: rs) = l ++ '\n' :: joinNl (r0 :: rs) from rfl] at h
      rcases occB_append_elim h with ⟨a, h2, hane, hsplit, hpfx⟩ | h
      · rw [pfxB_append_cases a pat ('\n' :: joinNl (r0 :: rs))] at hpfx
        by_cases hl : pat.length ≤ a.length
        · rw [if_pos hl] at hpfx
          obtain ⟨t, ht⟩ := pfxB_iff.mp hpfx
          exact ⟨l, by simp, occB_iff.mpr ⟨h2, t, by rw [← hsplit, ht, List.append_assoc]⟩⟩
        · rw [if_neg hl] at hpfx
          exfalso
          simp only [Bool.and_eq_true] at hpfx
          have hd := hpfx.2
          cases hdd : pat.drop a.length with
          | nil =>
            have := congrArg List.length hdd
            simp at this
            omega
          | cons pd pds =>
            rw [hdd] at hd
            simp only [pfxB, Bool.and_eq_true, decide_eq_true_eq] at hd
            have hmem : pd ∈ pat := by
              have h1 : pd ∈ pat.drop a.length := by rw [hdd]; simp
              exact List.mem_of_mem_drop h1
            rw [hd.1] at hmem
            exact hnl hmem
      · simp only [occB, Bool.or_eq_true] at h
        rcases h with h | h
        · exfalso
          cases pat with
          | nil => exact hne rfl
          | cons p ps =>
            simp only [pfxB, Bool.and_eq_true, decide_eq_true_eq] at h
            exact hnl (h.1 ▸ List.mem_cons_self _ _)
        · obtain ⟨l2, hl2, hocc⟩ := ih h
          exact ⟨l2, by simp [hl2], hocc⟩

theorem joinNl_semi : ∀ lines, lines ≠ [] →
    (∀ l ∈ lines, ∃ v, l = v ++ [';']) →
    ∃ w, joinNl lines = w ++ [';'] := by
  intro lines
  induction lines with
  | nil => intro h _; exact absurd rfl h
  | cons l rest ih =>
    intro _ hl
    cases rest with
    | nil =>
      obtain ⟨v, hv⟩ := hl l (by simp)
      exact ⟨v, by simpa [joinNl] using hv⟩
    | cons r0 rs =>
      obtain ⟨w, hw⟩ := ih (by simp) (fun x hx => hl x (by simp [hx]))
      refine ⟨l ++ '\n' :: w, ?_⟩
      rw [show joinNl (l :: r0 :: rs) = l ++ '\n' :: joinNl (r0 :: rs) from rfl, hw]
      simp

theorem occ_pat_block_false {pat : List Char} (hnl : '\n' ∉ pat) (hne : pat ≠ [])
    (lines : List (List Char)) (hl : ∀ l ∈ lines, occB pat l = false) :
    occB pat (joinNl lines) = false := by
  cases hx : occB pat (joinNl lines) with
  | false => rfl
  | true =>
    exfalso
    obtain ⟨l, hml, hocc⟩ := occ_joinNl hnl hne lines hx
    rw [hl l hml] at hocc
    cases hocc

theorem occ_block_pat_false {pat : List Char} (hnl : '\n' ∉ pat)
    (lines : List (List Char)) (hne : lines ≠ [])
    (hl : ∀ l ∈ lines, occB l pat = false) :
    occB (joinNl lines) pat = false := by
  cases lines with
  | nil => exact absurd rfl hne
  | cons l rest =>
    cases rest with
    | nil => exact hl l (by simp)
    | cons r0 rs =>
      cases hx : occB (joinNl (l :: r0 :: rs)) pat with
      | false => rfl
      | true =>
        exfalso
        obtain ⟨a2, b2, hab⟩ := occB_iff.mp hx
        have hmem : '\n' ∈ joinNl (l :: r0 :: rs) := by
          rw [show joinNl (l :: r0 :: rs) = l ++ '\n' :: joinNl (r0 :: rs) from rfl]
          exact List.mem_append.mpr (Or.inr (by simp))
        have hp : '\n' ∈ pat := by
          rw [hab]
          exact List.mem_append.mpr (Or.inl (List.mem_append.mpr (Or.inr hmem)))
        exact hnl hp

theorem semi_R3_block {pat wp : List Char}
    (hpat : pat = wp ++ [';']) (hwp : ';' ∉ wp) (hnl : '\n' ∉ pat)
    (lines : List (List Char)) (hlines : lines ≠ [])
    (hline : ∀ l ∈ lines, (∃ v, l = v ++ [';'] ∧ ';' ∉ v) ∧ occB l pat = false) :
    ∀ a b, pat = a ++ b → a ≠ [] → b ≠ [] → pfxB b (joinNl lines) = false := by
  intro a b hab _ hb
  cases hx : pfxB b (joinNl lines) with
  | false => rfl
  | true =>
    exfalso
    obtain ⟨w, hbw, _⟩ := split_last hpat hwp hab hb
    cases lines with
    | nil => exact hlines rfl
    | cons l rest =>
      cases rest with
      | nil =>
        obtain ⟨⟨v, hv, hvs⟩, hocc⟩ := hline l (by simp)
        rw [show joinNl [l] = l from rfl, hv] at hx
        have hbeq : b = l := by
          rw [hv]
          exact pfx_semi_whole hx hvs ⟨w, hbw⟩
        rw [hbeq] at hab
        rw [occB_iff.mpr ⟨a, [], by simp [hab]⟩] at hocc
        cases hocc
      | cons r0 rs =>
        rw [show joinNl (l :: r0 :: rs) = l ++ '\n' :: joinNl (r0 :: rs) from rfl] at hx
        rw [pfxB_append_cases l b ('\n' :: joinNl (r0 :: rs))] at hx
        by_cases hlen : b.length ≤ l.length
        · rw [if_pos hlen] at hx
          obtain ⟨⟨v, hv, hvs⟩, hocc⟩ := hline l (by simp)
          rw [hv] at hx
          have hbeq : b = l := by
            rw [hv]
            exact pfx_semi_whole hx hvs ⟨w, hbw⟩
          rw [hbeq] at hab
          rw [occB_iff.mpr ⟨a, [], by simp [hab]⟩] at hocc
          cases hocc
        · rw [if_neg hlen] at hx
          simp only [Bool.and_eq_true] at hx
          have hd := hx.2
          cases hdd : b.drop l.length with
          | nil =>
            have := congrArg List.length hdd
            simp at this
            omega
          | cons bd bds =>
            rw [hdd] at hd
            simp only [pfxB, Bool.and_eq_true, decide_eq_true_eq] at hd
            have hmem : bd ∈ pat := by
              have h1 : bd ∈ b.drop l.length := by rw [hdd]; simp
              rw [hab]
              exact List.mem_append.mpr (Or.inr (List.mem_of_mem_drop h1))
            rw [hd.1] at hmem
            exact hnl hmem

theorem semi_R4_block {pat wp : List Char}
    (hpat : pat = wp ++ [';']) (hwp : ';' ∉ wp)
    (lines : List (List Char)) (hlines : lines ≠ [])
    (hsemi : ∀ l ∈ lines, ∃ v, l = v ++ [';'])
    (hR1 : occB pat (joinNl lines) = false) :
    ∀ a b, joinNl lines = a ++ b → b ≠ [] → pfxB b pat = false := by
  intro a b hab hb
  cases hx : pfxB b pat with
  | false => rfl
  | true =>
    exfalso
    obtain ⟨wbl, hwbl⟩ := joinNl_semi lines hlines hsemi
    obtain ⟨w, hbw⟩ := split_last2 hwbl hab hb
    rw [hpat] at hx
    have hbeq : b = pat := by
      rw [hpat]
      exact pfx_semi_whole hx hwp ⟨w, hbw⟩
    rw [hbeq] at hab
    rw [occB_iff.mpr ⟨a, [], by simp [hab]⟩] at hR1
    cases hR1

/-! ### Idempotence of the import rewriter -/

theorem oldImp_ne_nil (cn : List Char) : oldImp cn ≠ [] := by
  rw [oldImp_semi]
  simp

theorem wildcardImp_ne_nil : wildcardImp ≠ [] := by decide

theorem watched_props {pat : List Char} (hw : watched pat) :
    pat ≠ [] ∧ '\n' ∉ pat ∧ ∃ wp, pat = wp ++ [';'] ∧ ';' ∉ wp := by
  rcases hw with ⟨cn, hg, rfl⟩ | rfl
  · obtain ⟨_, h2, _⟩ := goodClass_spec hg
    exact ⟨oldImp_ne_nil cn, oldImp_no_nl h2,
      ⟨impPfx ++ cn, oldImp_semi cn, oldImp_body_semi h2⟩⟩
  · exact ⟨wildcardImp_ne_nil, wildcard_no_nl,
      ⟨impPfx ++ ['*'], wildcardImp_semi, wildcard_body_semi⟩⟩

theorem watched_new_conds {pat cj dj : List Char} (hw : watched pat)
    (hcj : goodClass cj = true) (hdj : goodDomain dj = true) :
    occB pat (newImp dj cj) = false ∧ occB (newImp dj cj) pat = false ∧
    (∀ a b, pat = a ++ b → a ≠ [] → b ≠ [] → pfxB b (newImp dj cj) = false) ∧
    (∀ a b, newImp dj cj = a ++ b → b ≠ [] → pfxB b pat = false) := by
  obtain ⟨hne, hnl, wp, hpat, hwp⟩ := watched_props hw
  obtain ⟨_, hcj2, _⟩ := goodClass_spec hcj
  obtain ⟨_, hdj2⟩ := goodDomain_spec hdj
  have hR1 : occB pat (newImp dj cj) = false := by
    rcases hw with ⟨cn, hg, rfl⟩ | rfl
    · exact occ_old_new hg hcj hdj
    · exact occ_wild_new hcj hdj
  have hR2 : occB (newImp dj cj) pat = false := by
    rcases hw with ⟨cn, hg, rfl⟩ | rfl
    · exact occ_new_old hg hcj hdj
    · exact occ_new_wild hcj hdj
  exact ⟨hR1, hR2,
    semi_R3 hpat hwp (newImp_semi dj cj) (newImp_body_semi hdj2 hcj2) hR2,
    semi_R4 hpat hwp (newImp_semi dj cj) (newImp_body_semi hdj2 hcj2) hR1⟩

theorem impStep_preserves {pat : List Char} (hw : watched pat)
    {c : List Char} {p : String × String}
    (hp : goodClass p.1.toList = true ∧ goodDomain p.2.toList = true)
    (habs : occB pat c = false) :
    occB pat (impStep c p) = false := by
  unfold impStep
  by_cases hg : occB (oldImp p.1.toList) c = true
  · rw [if_pos hg]
    obtain ⟨R1, R2, R3, R4⟩ := watched_new_conds hw hp.1 hp.2
    exact replApp_occ_false (oldImp_ne_nil _) R1 R2 R3 R4 c.length c le_rfl (Or.inr habs)
  · rw [if_neg hg]
    exact habs

theorem impStep_self {c : List Char} {p : String × String}
    (hp : goodClass p.1.toList = true ∧ goodDomain p.2.toList = true) :
    occB (oldImp p.1.toList) (impStep c p) = false := by
  unfold impStep
  by_cases hg : occB (oldImp p.1.toList) c = true
  · rw [if_pos hg]
    obtain ⟨R1, R2, R3, R4⟩ :=
      watched_new_conds (Or.inl ⟨p.1.toList, hp.1, rfl⟩) hp.1 hp.2
    exact replApp_occ_false (oldImp_ne_nil _) R1 R2 R3 R4 c.length c le_rfl (Or.inl rfl)
  · rw [if_neg hg]
    cases hx : occB (oldImp p.1.toList) c with
    | false => rfl
    | true => exact absurd hx hg

theorem foldl_preserves_abs {pat : List Char} (hw : watched pat) :
    ∀ (L : List (String × String)) (c : List Char),
      (∀ p ∈ L, goodClass p.1.toList = true ∧ goodDomain p.2.toList = true) →
      occB pat c = false → occB pat (L.foldl impStep c) = false := by
  intro L
  induction L with
  | nil => intro c _ h; exact h
  | cons p L2 ih =>
    intro c hgood h
    exact ih _ (fun q hq => hgood q (by simp [hq]))
      (impStep_preserves hw (hgood p (by simp)) h)

theorem foldl_exact_abs :
    ∀ (L : List (String × String)) (c : List Char),
      (∀ p ∈ L, goodClass p.1.toList = true ∧ goodDomain p.2.toList = true) →
      ∀ q ∈ L, occB (oldImp q.1.toList) (L.foldl impStep c) = false := by
  intro L
  induction L with
  | nil => intro c _ q hq; simp at hq
  | cons p L2 ih =>
    intro c hgood q hq
    rcases List.mem_cons.mp hq with rfl | hq2
    · exact foldl_preserves_abs (Or.inl ⟨q.1.toList, (hgood q (by simp)).1, rfl⟩) L2 _
        (fun r hr => hgood r (by simp [hr]))
        (impStep_self (hgood q (by simp)))
    · exact ih _ (fun r hr => hgood r (by simp [hr])) q hq2

/-- After the exact-import loop, no old import of any known class remains. -/
theorem exactStep_abs (c : List Char) :
    ∀ q ∈ CLASS_TO_DOMAIN, occB (oldImp q.1.toList) (exactStep c) = false :=
  foldl_exact_abs CLASS_TO_DOMAIN c table_good

theorem foldl_exact_id :
    ∀ (L : List (String × String)) (c : List Char),
      (∀ q ∈ L, occB (oldImp q.1.toList) c = false) →
      L.foldl impStep c = c := by
  intro L
  induction L with
  | nil => intro c _; rfl
  | cons p L2 ih =>
    intro c h
    have hstep : impStep c p = c := by
      simp only [impStep, h p (by simp), Bool.false_eq_true, if_false]
    rw [show List.foldl impStep c (p :: L2) = L2.foldl impStep (impStep c p) from rfl, hstep]
    exact ih c (fun q hq => h q (by simp [hq]))

theorem exactStep_id {c : List Char}
    (h : ∀ q ∈ CLASS_TO_DOMAIN, occB (oldImp q.1.toList) c = false) :
    exactStep c = c := foldl_exact_id _ c h

theorem used_good {c : List Char} {cn : String} (h : cn ∈ sortedUsed c) :
    goodClass cn.toList = true ∧ goodDomain (domainOf cn).toList = true := by
  have h1 : cn ∈ usedClasses c := List.mem_mergeSort.mp h
  have h2 : cn ∈ CLASS_TO_DOMAIN.map (·.1) := (List.mem_filter.mp h1).1
  obtain ⟨p, hp, hpe⟩ := List.mem_map.mp h2
  constructor
  · rw [← hpe]
    exact (table_good p hp).1
  · unfold domainOf
    cases hf : CLASS_TO_DOMAIN.find? (fun q => q.1 == cn) with
    | none =>
      exfalso
      have hno := List.find?_eq_none.mp hf p hp
      rw [← hpe] at hno
      simp at hno
    | some p2 =>
      have hm := List.mem_of_find?_eq_some hf
      simpa using (table_good p2 hm).2

theorem wildcardStep_of_not_occ {c : List Char} (h : occB wildcardImp c = false) :
    wildcardStep c = c := by
  unfold wildcardStep
  rw [h]
  simp

theorem wildcardStep_of_used_nil {c : List Char} (h : sortedUsed c = []) :
    wildcardStep c = c := by
  unfold wildcardStep
  rw [h]
  split <;> rfl

/-- `update_imports` is idempotent on every file content. -/
theorem updImports_idem (c : List Char) : updImports (updImports c) = updImports c := by
  have A1 := exactStep_abs c
  by_cases hwc : occB wildcardImp (exactStep c) = true
  · cases hsu : sortedUsed (exactStep c) with
    | nil =>
      have hws : wildcardStep (exactStep c) = exactStep c := wildcardStep_of_used_nil hsu
      show wildcardStep (exactStep (wildcardStep (exactStep c))) = wildcardStep (exactStep c)
      rw [hws, exactStep_id A1, hws]
    | cons u us =>
      have hwstep : wildcardStep (exactStep c) =
          replaceAll wildcardImp
            (joinNl ((u :: us).map fun cn => newImp (domainOf cn).toList cn.toList))
            (exactStep c) := by
        unfold wildcardStep
        rw [if_pos hwc, hsu]
      have hused : ∀ cn ∈ u :: us, goodClass cn.toList = true ∧
          goodDomain (domainOf cn).toList = true := by
        intro cn hcn
        exact used_good (by rw [hsu]; exact hcn)
      have hlinefacts : ∀ l ∈ (u :: us).map (fun cn => newImp (domainOf cn).toList cn.toList),
          ∃ dj cj, l = newImp dj cj ∧ goodClass cj = true ∧ goodDomain dj = true := by
        intro l hl
        obtain ⟨cn, hcn, hle⟩ := List.mem_map.mp hl
        exact ⟨(domainOf cn).toList, cn.toList, hle.symm, (hused cn hcn).1, (hused cn hcn).2⟩
      have hlne : (u :: us).map (fun cn => newImp (domainOf cn).toList cn.toList) ≠ [] := by
        simp
      have habs2 : ∀ pat, watched pat →
          (pat = wildcardImp ∨ occB pat (exactStep c) = false) →
          occB pat (wildcardStep (exactStep c)) = false := by
        intro pat hw hdisj
        obtain ⟨hpne, hpnl, wp, hpsemi, hwpsemi⟩ := watched_props hw
        have hR1b : occB pat
            (joinNl ((u :: us).map fun cn => newImp (domainOf cn).toList cn.toList)) = false := by
          refine occ_pat_block_false hpnl hpne _ ?_
          intro l hl
          obtain ⟨dj, cj, rfl, hcj, hdj⟩ := hlinefacts l hl
          exact (watched_new_conds hw hcj hdj).1
        have hR2b : occB
            (joinNl ((u :: us).map fun cn => newImp (domainOf cn).toList cn.toList)) pat = false := by
          refine occ_block_pat_false hpnl _ hlne ?_
          intro l hl
          obtain ⟨dj, cj, rfl, hcj, hdj⟩ := hlinefacts l hl
          exact (watched_new_conds hw hcj hdj).2.1
        have hR3b := semi_R3_block hpsemi hwpsemi hpnl _ hlne (by
          intro l hl
          obtain ⟨dj, cj, rfl, hcj, hdj⟩ := hlinefacts l hl
          obtain ⟨_, hcj2, _⟩ := goodClass_spec hcj
          obtain ⟨_, hdj2⟩ := goodDomain_spec hdj
          exact ⟨⟨(impPfx ++ dj) ++ '.' :: cj, newImp_semi dj cj, newImp_body_semi hdj2 hcj2⟩,
            (watched_new_conds hw hcj hdj).2.1⟩)
        have hR4b := semi_R4_block hpsemi hwpsemi _ hlne (by
          intro l hl
          obtain ⟨dj, cj, rfl, hcj, hdj⟩ := hlinefacts l hl
          exact ⟨(impPfx ++ dj) ++ '.' :: cj, newImp_semi dj cj⟩) hR1b
        rw [hwstep]
        exact replApp_occ_false wildcardImp_ne_nil hR1b hR2b hR3b hR4b _ _ le_rfl hdisj
      have hc2old : ∀ q ∈ CLASS_TO_DOMAIN,
          occB (oldImp q.1.toList) (wildcardStep (exactStep c)) = false :=
        fun q hq => habs2 _ (Or.inl ⟨q.1.toList, (table_good q hq).1, rfl⟩) (Or.inr (A1 q hq))
      have hc2w : occB wildcardImp (wildcardStep (exactStep c)) = false :=
        habs2 _ (Or.inr rfl) (Or.inl rfl)
      show wildcardStep (exactStep (wildcardStep (exactStep c))) = wildcardStep (exactStep c)
      rw [exactStep_id hc2old, wildcardStep_of_not_occ hc2w]
  · have hws : wildcardStep (exactStep c) = exactStep c :=
      wildcardStep_of_not_occ (by
        cases hx : occB wildcardImp (exactStep c) with
        | false => rfl
        | true => exact absurd hx hwc)
    show wildcardStep (exactStep (wildcardStep (exactStep c))) = wildcardStep (exactStep c)
    rw [hws, exactStep_id A1, hws]

/-! ### The import rewrites act line by line -/

theorem pfxB_nil_false {pat : List Char} (h : pat ≠ []) : pfxB pat [] = false := by
  cases pat with
  | nil => exact absurd rfl h
  | cons p ps => rfl

theorem pfxB_nl {pat : List Char} (hnl : '\n' ∉ pat) (a z : List Char) :
    pfxB pat (a ++ '\n' :: z) = pfxB pat a := by
  rw [pfxB_append_cases a pat ('\n' :: z)]
  by_cases hl : pat.length ≤ a.length
  · rw [if_pos hl]
  · rw [if_neg hl]
    have hr : pfxB pat a = false := by
      cases hx : pfxB pat a with
      | false => rfl
      | true => exact absurd (pfxB_length hx) hl
    rw [hr]
    cases hup : pfxB a pat with
    | false => rfl
    | true =>
      rw [Bool.true_and]
      cases hdd : pat.drop a.length with
      | nil =>
        have := congrArg List.length hdd
        simp at this
        omega
      | cons pd pds =>
        cases hx : pfxB (pd :: pds) ('\n' :: z) with
        | false => rfl
        | true =>
          exfalso
          simp only [pfxB, Bool.and_eq_true, decide_eq_true_eq] at hx
          have hmem : pd ∈ pat := by
            have h1 : pd ∈ pat.drop a.length := by rw [hdd]; simp
            exact List.mem_of_mem_drop h1
          rw [hx.1] at hmem
          exact hnl hmem

theorem replApp_nl_split {pat rep : List Char} (hne : pat ≠ []) (hnl : '\n' ∉ pat) :
    ∀ f l z, (l ++ '\n' :: z).length ≤ f →
      replApp pat rep f (l ++ '\n' :: z) =
        replaceAll pat rep l ++ '\n' :: replApp pat rep (f - (l.length + 1)) z := by
  intro f
  induction f with
  | zero => intro l z hf; simp at hf
  | succ f ih =>
    intro l z hf
    have hp1 : 1 ≤ pat.length := by
      cases pat with
      | nil => exact absurd rfl hne
      | cons _ _ => simp
    cases l with
    | nil =>
      have hx : pfxB pat ('\n' :: z) = false := by
        have h0 := pfxB_nl hnl [] z
        rw [pfxB_nil_false hne] at h0
        simpa using h0
      show replApp pat rep (f + 1) ('\n' :: z) = [] ++ '\n' :: replApp pat rep (f + 1 - 1) z
      simp only [replApp, hx, Bool.false_eq_true, if_false, List.nil_append,
        Nat.add_sub_cancel]
    | cons c l2 =>
      by_cases hx : pfxB pat (c :: l2) = true
      · have hxz : pfxB pat ((c :: l2) ++ '\n' :: z) = true := by
          rw [pfxB_nl hnl]
          exact hx
        have hlen := pfxB_length hx
        simp only [List.cons_append] at hxz ⊢
        simp only [replApp, if_pos hxz]
        have hdrop : (c :: (l2 ++ '\n' :: z)).drop pat.length =
            ((c :: l2).drop pat.length) ++ '\n' :: z := by
          rw [show (c :: (l2 ++ '\n' :: z)) = (c :: l2) ++ '\n' :: z from by simp]
          rw [List.drop_append_eq_append_drop]
          rw [show pat.length - (c :: l2).length = 0 from by simp at hlen ⊢; omega]
          simp
        rw [hdrop]
        rw [ih ((c :: l2).drop pat.length) z (by simp at hf ⊢; omega)]
        have e1 : replaceAll pat rep (c :: l2) =
            rep ++ replaceAll pat rep ((c :: l2).drop pat.length) := by
          show replApp pat rep (l2.length + 1) (c :: l2) = _
          simp only [replApp, if_pos hx]
          rw [replApp_fuel hne l2.length ((c :: l2).drop pat.length).length
            ((c :: l2).drop pat.length) (by simp; omega) le_rfl]
          rfl
        rw [e1]
        have e3 : replApp pat rep (f - (((c :: l2).drop pat.length).length + 1)) z =
            replApp pat rep (f + 1 - ((c :: l2).length + 1)) z := by
          apply replApp_fuel hne
          · simp at hf ⊢
            omega
          · simp at hf hlen ⊢
            omega
        rw [e3]
        simp
      · have hxf : pfxB pat (c :: l2) = false := by
          cases hy : pfxB pat (c :: l2) with
          | false => rfl
          | true => exact absurd hy hx
        have hxz : pfxB pat ((c :: l2) ++ '\n' :: z) = false := by
          rw [pfxB_nl hnl]
          exact hxf
        simp only [List.cons_append] at hxz ⊢
        simp only [replApp, hxz, Bool.false_eq_true, if_false]
        rw [ih l2 z (by simp at hf ⊢; omega)]
        have e1 : replaceAll pat rep (c :: l2) = c :: replaceAll pat rep l2 := by
          show replApp pat rep (l2.length + 1) (c :: l2) = _
          simp only [replApp, hxf, Bool.false_eq_true, if_false]
          rfl
        rw [e1]
        simp

theorem replaceAll_joinNl {pat rep : List Char} (hne : pat ≠ []) (hnl : '\n' ∉ pat) :
    ∀ lines, replaceAll pat rep (joinNl lines) =
      joinNl (lines.map (replaceAll pat rep)) := by
  intro lines
  induction lines with
  | nil => simp [joinNl, replaceAll, replApp]
  | cons l rest ih =>
    cases rest with
    | nil => simp [joinNl]
    | cons m rest2 =>
      show replaceAll pat rep (l ++ '\n' :: joinNl (m :: rest2)) = _
      show _ = replaceAll pat rep l ++ '\n' :: joinNl ((m :: rest2).map (replaceAll pat rep))
      rw [← ih]
      show replApp pat rep (l ++ '\n' :: joinNl (m :: rest2)).length _ = _
      rw [replApp_nl_split hne hnl _ l (joinNl (m :: rest2)) le_rfl]
      have : (l ++ '\n' :: joinNl (m :: rest2)).length - (l.length + 1) =
          (joinNl (m :: rest2)).length := by simp; omega
      rw [this]
      rfl

theorem pfxB_self (p : List Char) : pfxB p p = true := by
  have h := pfxB_self_append p []
  simpa using h

theorem replApp_nil (pat rep : List Char) : ∀ f, replApp pat rep f [] = [] := by
  intro f
  cases f with
  | zero => rfl
  | succ g => rfl

theorem replaceAll_self {pat rep : List Char} (hne : pat ≠ []) :
    replaceAll pat rep pat = rep := by
  cases pat with
  | nil => exact absurd rfl hne
  | cons c cs =>
    show replApp (c :: cs) rep (cs.length + 1) (c :: cs) = rep
    simp only [replApp, if_pos (pfxB_self (c :: cs))]
    rw [show (c :: cs).drop (c :: cs).length = [] from List.drop_length _]
    rw [replApp_nil]
    simp

theorem joinNl_cons (l : List Char) {rest : List (List Char)} (h : rest ≠ []) :
    joinNl (l :: rest) = l ++ '\n' :: joinNl rest := by
  cases rest with
  | nil => exact absurd rfl h
  | cons r rs => rfl

theorem joinNl_append : ∀ (A B : List (List Char)), A ≠ [] → B ≠ [] →
    joinNl (A ++ B) = joinNl A ++ '\n' :: joinNl B := by
  intro A
  induction A with
  | nil => intro B h _; exact absurd rfl h
  | cons a A2 ih =>
    intro B _ hB
    cases A2 with
    | nil =>
      rw [List.singleton_append, joinNl_cons a hB]
      rfl
    | cons a2 A3 =>
      rw [List.cons_append, joinNl_cons a (by simp), ih B (by simp) hB,
        joinNl_cons a (by simp)]
      simp

theorem joinNl_flatten_mid (pre post : List (List Char)) {imps : List (List Char)}
    (h : imps ≠ []) :
    joinNl (pre ++ joinNl imps :: post) = joinNl (pre ++ imps ++ post) := by
  cases hpre : pre with
  | nil =>
    cases hpost : post with
    | nil => simp [joinNl]
    | cons p ps =>
      rw [List.nil_append, List.nil_append, joinNl_cons (joinNl imps) (by simp),
        joinNl_append imps (p :: ps) h (by simp)]
  | cons q qs =>
    cases hpost : post with
    | nil =>
      rw [List.append_nil]
      rw [joinNl_append (q :: qs) [joinNl imps] (by simp) (by simp),
        joinNl_append (q :: qs) imps (by simp) h]
      rfl
    | cons p ps =>
      rw [joinNl_append (q :: qs) (joinNl imps :: (p :: ps)) (by simp) (by simp),
        joinNl_cons (joinNl imps) (show (p :: ps) ≠ [] from by simp),
        show (q :: qs) ++ imps ++ (p :: ps) = (q :: qs) ++ (imps ++ (p :: ps)) from
          List.append_assoc _ _ _,
        joinNl_append (q :: qs) (imps ++ (p :: ps)) (by simp) (by simp [h]),
        joinNl_append imps (p :: ps) h (by simp)]

theorem joinNl_middle : ∀ (pre : List (List Char)) (m : List Char)
    (post : List (List Char)), ∃ a b, joinNl (pre ++ m :: post) = a ++ m ++ b := by
  intro pre m post
  cases hpre : pre with
  | nil =>
    cases hpost : post with
    | nil => exact ⟨[], [], by simp [joinNl]⟩
    | cons p ps =>
      refine ⟨[], '\n' :: joinNl (p :: ps), ?_⟩
      rw [List.nil_append, joinNl_cons _ (by simp)]
      simp
  | cons q qs =>
    cases hpost : post with
    | nil =>
      refine ⟨joinNl (q :: qs) ++ ['\n'], [], ?_⟩
      rw [joinNl_append (q :: qs) [m] (by simp) (by simp)]
      simp [joinNl]
    | cons p ps =>
      refine ⟨joinNl (q :: qs) ++ ['\n'], '\n' :: joinNl (p :: ps), ?_⟩
      rw [joinNl_append (q :: qs) (m :: (p :: ps)) (by simp) (by simp),
        joinNl_cons m (show (p :: ps) ≠ [] from by simp)]
      simp

theorem impStep_eq (c : List Char) (p : String × String) :
    impStep c p = replaceAll (oldImp p.1.toList) (newImp p.2.toList p.1.toList) c := by
  unfold impStep
  by_cases hg : occB (oldImp p.1.toList) c = true
  · rw [if_pos hg]
  · rw [if_neg hg]
    have hf : occB (oldImp p.1.toList) c = false := by
      cases hx : occB (oldImp p.1.toList) c with
      | false => rfl
      | true => exact absurd hx hg
    rw [replaceAll_of_not_occ hf]

theorem table_keys_nodup : (CLASS_TO_DOMAIN.map (·.1)).Nodup := by decide

theorem foldl_impStep_joinNl :
    ∀ (L : List (String × String)),
      (∀ p ∈ L, goodClass p.1.toList = true) →
      ∀ lines, L.foldl impStep (joinNl lines) =
        joinNl (lines.map (fun l => L.foldl impStep l)) := by
  intro L
  induction L with
  | nil => intro _ lines; simp
  | cons p L2 ih =>
    intro hgood lines
    have hne : oldImp p.1.toList ≠ [] := oldImp_ne_nil _
    have hnl : '\n' ∉ oldImp p.1.toList :=
      oldImp_no_nl (goodClass_spec (hgood p (by simp))).2.1
    show L2.foldl impStep (impStep (joinNl lines) p) = _
    rw [impStep_eq, replaceAll_joinNl hne hnl,
      ih (fun q hq => hgood q (by simp [hq])), List.map_map]
    congr 1
    apply List.map_congr_left
    intro l _
    show L2.foldl impStep
      (replaceAll (oldImp p.1.toList) (newImp p.2.toList p.1.toList) l) =
        (p :: L2).foldl impStep l
    rw [show (p :: L2).foldl impStep l = L2.foldl impStep (impStep l p) from rfl,
      impStep_eq]

/-- The exact-import loop acts independently on each line of the content. -/
theorem exactStep_joinNl (lines : List (List Char)) :
    exactStep (joinNl lines) = joinNl (lines.map lineExact) :=
  foldl_impStep_joinNl CLASS_TO_DOMAIN (fun p hp => (table_good p hp).1) lines

theorem foldl_lineExact_hit :
    ∀ (L : List (String × String)) (p : String × String), p ∈ L →
      (∀ q ∈ L, goodClass q.1.toList = true ∧ goodDomain q.2.toList = true) →
      (L.map (·.1)).Nodup →
      L.foldl impStep (oldImp p.1.toList) = newImp p.2.toList p.1.toList := by
  intro L
  induction L with
  | nil => intro p hp _ _; simp at hp
  | cons r L2 ih =>
    intro p hp hgood hnd
    rcases List.mem_cons.mp hp with rfl | hp2
    · have hstep : impStep (oldImp p.1.toList) p = newImp p.2.toList p.1.toList := by
        unfold impStep
        rw [if_pos (occB_of_pfxB (pfxB_self _))]
        exact replaceAll_self (oldImp_ne_nil _)
      rw [show (p :: L2).foldl impStep (oldImp p.1.toList) =
        L2.foldl impStep (impStep (oldImp p.1.toList) p) from rfl, hstep]
      exact foldl_exact_id L2 _ (fun q hq =>
        occ_old_new (hgood q (List.mem_cons_of_mem _ hq)).1
          (hgood p (by simp)).1 (hgood p (by simp)).2)
    · have hr1 : r.1 ≠ p.1 := by
        intro he
        apply (List.nodup_cons.mp hnd).1
        exact List.mem_map.mpr ⟨p, hp2, he.symm⟩
      have hne2 : r.1.toList ≠ p.1.toList := by
        intro he
        exact hr1 (String.ext he)
      have hstep : impStep (oldImp p.1.toList) r = oldImp p.1.toList := by
        unfold impStep
        rw [if_neg (by
          rw [occ_old_old hne2 (hgood r (by simp)).1
            (hgood p (List.mem_cons_of_mem _ hp2)).1]
          simp)]
      rw [show (r :: L2).foldl impStep (oldImp p.1.toList) =
        L2.foldl impStep (impStep (oldImp p.1.toList) r) from rfl, hstep]
      exact ih p hp2 (fun q hq => hgood q (List.mem_cons_of_mem _ hq))
        (List.nodup_cons.mp hnd).2

/-- A line that is exactly an old import of a known class is rewritten to the
domain-qualified import for that class. -/
theorem lineExact_hit : ∀ p ∈ CLASS_TO_DOMAIN,
    lineExact (oldImp p.1.toList) = newImp p.2.toList p.1.toList := fun p hp =>
  foldl_lineExact_hit CLASS_TO_DOMAIN p hp table_good table_keys_nodup

/-- A line containing no old import of any known class is left unchanged. -/
theorem lineExact_id {l : List Char}
    (h : ∀ q ∈ CLASS_TO_DOMAIN, occB (oldImp q.1.toList) l = false) :
    lineExact l = l := foldl_exact_id _ l h

/-! ### Sortedness of the detected class list -/

theorem strLe_trans : ∀ (a b c : String), decide (a ≤ b) = true →
    decide (b ≤ c) = true → decide (a ≤ c) = true := fun _ _ _ hab hbc =>
  decide_eq_true (le_trans (of_decide_eq_true hab) (of_decide_eq_true hbc))

theorem strLe_total : ∀ (a b : String), (decide (a ≤ b) || decide (b ≤ a)) = true := by
  intro a b
  rcases le_total a b with h | h
  · rw [decide_eq_true h, Bool.true_or]
  · rw [show decide (b ≤ a) = true from decide_eq_true h, Bool.or_true]

theorem sortedUsed_mem (c : List Char) (cn : String) :
    cn ∈ sortedUsed c ↔
      cn ∈ CLASS_TO_DOMAIN.map (·.1) ∧ wordOccurs cn.toList c = true := by
  unfold sortedUsed usedClasses
  rw [List.mem_mergeSort, List.mem_filter]

theorem sortedUsed_sorted (c : List Char) :
    List.Pairwise (fun a b : String => a ≤ b) (sortedUsed c) := by
  have h := List.sorted_mergeSort strLe_trans strLe_total (usedClasses c)
  exact h.imp fun hx => of_decide_eq_true hx

theorem wildcardStep_of_used_cons {c : List Char} {u : String} {us : List String}
    (hgate : occB wildcardImp c = true) (h : sortedUsed c = u :: us) :
    wildcardStep c = replaceAll wildcardImp
      (joinNl ((u :: us).map fun cn => newImp (domainOf cn).toList cn.toList)) c := by
  unfold wildcardStep
  rw [if_pos hgate, h]

theorem map_replaceAll_id {pat rep : List Char} {L : List (List Char)}
    (h : ∀ l ∈ L, occB pat l = false) :
    List.map (replaceAll pat rep) L = L := by
  calc List.map (replaceAll pat rep) L
      = List.map id L :=
        List.map_congr_left (fun l hl => replaceAll_of_not_occ (h l hl))
    _ = L := List.map_id L

/-! ### C5: exact import lines -/

set_option maxRecDepth 4000 in
/-- C5, counterexample: on a file with two exact old-flat-package import lines
the import rewriter rewrites BOTH lines; so for the first import line the
claim "that line is replaced ... and no other line in the file changes" fails:
the other line also changes. -/
theorem C5_counterexample :
    updImports (oldImp "Customer".toList ++ '\n' :: oldImp "PricingRule".toList) =
      newImp "customer".toList "Customer".toList ++ '\n' ::
        newImp "rule".toList "PricingRule".toList ∧
    newImp "rule".toList "PricingRule".toList ≠ oldImp "PricingRule".toList ∧
    newImp "customer".toList "Customer".toList ≠ oldImp "Customer".toList := by
  refine ⟨by decide, by decide, by decide⟩

/-- C5, amended: on content without the wildcard import, `update_imports` acts
independently on each line through the per-line exact-import loop `lineExact`;
a line that is exactly an old import of a known class becomes exactly the
domain-qualified import, and a line free of old-import literals is unchanged —
but EVERY line containing an old-import literal is rewritten, not only one. -/
theorem C5_every_exact_import_line_rewritten (lines : List (List Char))
    (hw : occB wildcardImp (joinNl lines) = false) :
    updImports (joinNl lines) = joinNl (lines.map lineExact) ∧
    (∀ p ∈ CLASS_TO_DOMAIN,
      lineExact (oldImp p.1.toList) = newImp p.2.toList p.1.toList) ∧
    (∀ l, (∀ q ∈ CLASS_TO_DOMAIN, occB (oldImp q.1.toList) l = false) →
      lineExact l = l) := by
  refine ⟨?_, lineExact_hit, fun l h => lineExact_id h⟩
  show wildcardStep (exactStep (joinNl lines)) = _
  have habs : occB wildcardImp (exactStep (joinNl lines)) = false :=
    foldl_preserves_abs (Or.inr rfl) CLASS_TO_DOMAIN _ table_good hw
  rw [wildcardStep_of_not_occ habs, exactStep_joinNl]

theorem C5_witness :
    occB wildcardImp (joinNl ["import com.meatrics.pricing.Customer;".toList,
      "int x;".toList]) = false ∧
    updImports (joinNl ["import com.meatrics.pricing.Customer;".toList,
      "int x;".toList]) =
      joinNl (["import com.meatrics.pricing.Customer;".toList,
        "int x;".toList].map lineExact) :=
  ⟨by decide, (C5_every_exact_import_line_rewritten
    ["import com.meatrics.pricing.Customer;".toList, "int x;".toList]
    (by decide)).1⟩

/-! ### C2: wildcard import expansion -/

/-- C2: on a file whose content is a sequence of lines with the wildcard
statement as one whole line (and no other wildcard occurrence), and with no
exact old-flat-package imports anywhere (so the scan text equals the file
text), the rewriter: leaves the content unchanged when no known class is
detected; otherwise replaces exactly the wildcard line by one explicit
domain-qualified line per detected class; the detected classes are exactly
the known class names with a word-boundary occurrence in the content, in
alphabetical order. -/
theorem C2_wildcard_import_expansion (pre post : List (List Char))
    (hexact : ∀ q ∈ CLASS_TO_DOMAIN,
      occB (oldImp q.1.toList) (joinNl (pre ++ wildcardImp :: post)) = false)
    (hpre : ∀ l ∈ pre, occB wildcardImp l = false)
    (hpost : ∀ l ∈ post, occB wildcardImp l = false) :
    (sortedUsed (joinNl (pre ++ wildcardImp :: post)) = [] →
      updImports (joinNl (pre ++ wildcardImp :: post)) =
        joinNl (pre ++ wildcardImp :: post)) ∧
    (sortedUsed (joinNl (pre ++ wildcardImp :: post)) ≠ [] →
      updImports (joinNl (pre ++ wildcardImp :: post)) =
        joinNl (pre ++ (sortedUsed (joinNl (pre ++ wildcardImp :: post))).map
          (fun cn => newImp (domainOf cn).toList cn.toList) ++ post)) ∧
    (∀ cn : String, cn ∈ sortedUsed (joinNl (pre ++ wildcardImp :: post)) ↔
      cn ∈ CLASS_TO_DOMAIN.map (·.1) ∧
        wordOccurs cn.toList (joinNl (pre ++ wildcardImp :: post)) = true) ∧
    List.Pairwise (fun a b : String => a ≤ b)
      (sortedUsed (joinNl (pre ++ wildcardImp :: post))) := by
  refine ⟨?_, ?_, fun cn => sortedUsed_mem _ cn, sortedUsed_sorted _⟩
  · intro hused
    rw [show updImports (joinNl (pre ++ wildcardImp :: post)) =
      wildcardStep (exactStep (joinNl (pre ++ wildcardImp :: post))) from rfl,
      exactStep_id hexact, wildcardStep_of_used_nil hused]
  · intro hused
    obtain ⟨u, us, he⟩ : ∃ u us,
        sortedUsed (joinNl (pre ++ wildcardImp :: post)) = u :: us := by
      cases hx : sortedUsed (joinNl (pre ++ wildcardImp :: post)) with
      | nil => exact absurd hx hused
      | cons u us => exact ⟨u, us, rfl⟩
    have hgate : occB wildcardImp (joinNl (pre ++ wildcardImp :: post)) = true := by
      obtain ⟨a, b, hab⟩ := joinNl_middle pre wildcardImp post
      exact occB_iff.mpr ⟨a, b, hab⟩
    rw [show updImports (joinNl (pre ++ wildcardImp :: post)) =
      wildcardStep (exactStep (joinNl (pre ++ wildcardImp :: post))) from rfl,
      exactStep_id hexact, wildcardStep_of_used_cons hgate he,
      replaceAll_joinNl wildcardImp_ne_nil wildcard_no_nl]
    simp only [List.map_append, List.map_cons]
    rw [replaceAll_self wildcardImp_ne_nil,
      map_replaceAll_id hpre, map_replaceAll_id hpost, he]
    simp only [List.map_cons]
    rw [joinNl_flatten_mid pre post (by simp)]

theorem C2_witness :
    (∀ q ∈ CLASS_TO_DOMAIN, occB (oldImp q.1.toList)
      (joinNl ([] ++ wildcardImp :: ["Customer a; PricingRule b;".toList])) = false) ∧
    sortedUsed (joinNl ([] ++ wildcardImp ::
      ["Customer a; PricingRule b;".toList])) ≠ [] ∧
    updImports (joinNl ([] ++ wildcardImp ::
      ["Customer a; PricingRule b;".toList])) =
      joinNl ([] ++ (sortedUsed (joinNl ([] ++ wildcardImp ::
        ["Customer a; PricingRule b;".toList]))).map
        (fun cn => newImp (domainOf cn).toList cn.toList) ++
        ["Customer a; PricingRule b;".toList]) := by
  have hmem : "Customer" ∈ sortedUsed (joinNl ([] ++ wildcardImp ::
      ["Customer a; PricingRule b;".toList])) :=
    (sortedUsed_mem _ "Customer").mpr ⟨by decide, by decide⟩
  have hne : sortedUsed (joinNl ([] ++ wildcardImp ::
      ["Customer a; PricingRule b;".toList])) ≠ [] := by
    intro h
    rw [h] at hmem
    simp at hmem
  exact ⟨by decide, hne,
    (C2_wildcard_import_expansion [] ["Customer a; PricingRule b;".toList]
      (by decide) (by simp) (by
        intro l hl
        rw [show l = "Customer a; PricingRule b;".toList from by
          simpa using hl]
        decide)).2.1 hne⟩

/-! ### Filesystem primitives -/

theorem existsFS_eq (fs : FS) (p : Path) : existsFS fs p = (lookupFS fs p).isSome := by
  unfold existsFS lookupFS
  cases fs.find? (fun e => e.1 == p) <;> rfl

theorem lookupFS_cons (e : Path × String) (fs : FS) (p : Path) :
    lookupFS (e :: fs) p =
      if (e.1 == p) = true then some e.2 else lookupFS fs p := by
  cases h : (e.1 == p) with
  | true => simp [lookupFS, List.find?_cons, h]
  | false => simp [lookupFS, List.find?_cons, h]

theorem existsFS_cons (e : Path × String) (fs : FS) (p : Path) :
    existsFS (e :: fs) p = ((e.1 == p) || existsFS fs p) := by
  rw [existsFS_eq, existsFS_eq, lookupFS_cons]
  cases h : (e.1 == p) with
  | true => rw [if_pos rfl, Bool.true_or]; rfl
  | false => rw [if_neg Bool.false_ne_true, Bool.false_or]

theorem unlinkFS_cons (e : Path × String) (fs : FS) (q : Path) :
    unlinkFS (e :: fs) q =
      if (e.1 == q) = true then unlinkFS fs q else e :: unlinkFS fs q := by
  show List.filter (fun x => !(x.1 == q)) (e :: fs) = _
  rw [List.filter_cons]
  cases h : (e.1 == q) with
  | true =>
    rw [if_neg (by simp), if_pos rfl]
    rfl
  | false =>
    rw [if_pos (by simp), if_neg Bool.false_ne_true]
    rfl

theorem lookupFS_unlink_self (fs : FS) (p : Path) :
    lookupFS (unlinkFS fs p) p = none := by
  induction fs with
  | nil => rfl
  | cons e fs ih =>
    rw [unlinkFS_cons]
    by_cases h : (e.1 == p) = true
    · rw [if_pos h]
      exact ih
    · rw [if_neg h, lookupFS_cons, if_neg h]
      exact ih

theorem lookupFS_unlink_ne {p q : Path} (h : p ≠ q) (fs : FS) :
    lookupFS (unlinkFS fs q) p = lookupFS fs p := by
  induction fs with
  | nil => rfl
  | cons e fs ih =>
    rw [unlinkFS_cons, lookupFS_cons]
    by_cases he : (e.1 == q) = true
    · rw [if_pos he, ih,
        if_neg (fun hp => h ((beq_iff_eq.mp hp).symm.trans (beq_iff_eq.mp he)))]
    · rw [if_neg he, lookupFS_cons, ih]

theorem lookupFS_append_map_self {p : Path} (v : String) :
    ∀ fs : FS, existsFS fs p = true →
      lookupFS (fs.map (fun e => if (e.1 == p) = true then (p, v) else e)) p =
        some v := by
  intro fs
  induction fs with
  | nil => intro h; simp [existsFS] at h
  | cons e fs ih =>
    intro h
    rw [List.map_cons]
    by_cases he : (e.1 == p) = true
    · rw [if_pos he, lookupFS_cons, if_pos (by simp)]
    · rw [if_neg he, lookupFS_cons, if_neg he]
      rw [existsFS_cons] at h
      apply ih
      cases hx : existsFS fs p with
      | true => rfl
      | false =>
        exfalso
        rw [hx, Bool.or_false] at h
        exact he h

theorem lookupFS_append_self {p : Path} (v : String) :
    ∀ fs : FS, existsFS fs p = false → lookupFS (fs ++ [(p, v)]) p = some v := by
  intro fs
  induction fs with
  | nil =>
    intro _
    rw [List.nil_append, lookupFS_cons, if_pos (by simp)]
  | cons e fs ih =>
    intro h
    rw [List.cons_append, lookupFS_cons]
    rw [existsFS_cons] at h
    by_cases he : (e.1 == p) = true
    · rw [he, Bool.true_or] at h
      exact absurd h (by simp)
    · rw [if_neg he]
      apply ih
      cases hx : existsFS fs p with
      | false => rfl
      | true =>
        rw [hx, Bool.or_true] at h
        exact absurd h (by simp)

theorem lookupFS_write_self (fs : FS) (p : Path) (v : String) :
    lookupFS (writeFS fs p v) p = some v := by
  unfold writeFS
  by_cases h : existsFS fs p = true
  · rw [if_pos h]
    exact lookupFS_append_map_self v fs h
  · rw [if_neg h]
    apply lookupFS_append_self
    cases hx : existsFS fs p with
    | false => rfl
    | true => exact absurd hx h

theorem lookupFS_map_write_ne {p q : Path} (h : p ≠ q) (v : String) :
    ∀ fs : FS,
      lookupFS (fs.map (fun e => if (e.1 == q) = true then (q, v) else e)) p =
        lookupFS fs p := by
  intro fs
  induction fs with
  | nil => rfl
  | cons e fs ih =>
    rw [List.map_cons, lookupFS_cons]
    by_cases he : (e.1 == q) = true
    · rw [if_pos he, lookupFS_cons,
        if_neg (fun hp => h ((beq_iff_eq.mp hp).symm)),
        if_neg (fun hp => h
          ((beq_iff_eq.mp hp).symm.trans (beq_iff_eq.mp he)))]
      exact ih
    · rw [if_neg he, lookupFS_cons]
      by_cases hp : (e.1 == p) = true
      · rw [if_pos hp, if_pos hp]
      · rw [if_neg hp, if_neg hp]
        exact ih

theorem lookupFS_append_ne {p q : Path} (h : p ≠ q) (v : String) :
    ∀ fs : FS, lookupFS (fs ++ [(q, v)]) p = lookupFS fs p := by
  intro fs
  induction fs with
  | nil =>
    rw [List.nil_append, lookupFS_cons,
      if_neg (fun hp => h ((beq_iff_eq.mp hp).symm))]
  | cons e fs ih =>
    rw [List.cons_append, lookupFS_cons, lookupFS_cons]
    by_cases hp : (e.1 == p) = true
    · rw [if_pos hp, if_pos hp]
    · rw [if_neg hp, if_neg hp]
      exact ih

theorem lookupFS_write_ne {p q : Path} (h : p ≠ q) (fs : FS) (v : String) :
    lookupFS (writeFS fs q v) p = lookupFS fs p := by
  unfold writeFS
  by_cases hex : existsFS fs q = true
  · rw [if_pos hex]
    exact lookupFS_map_write_ne h v fs
  · rw [if_neg hex]
    exact lookupFS_append_ne h v fs

/-! ### Path shapes and the move step -/

theorem srcPath_ne_destPath (fn d fn2 : String) : srcPath fn ≠ destPath d fn2 := by
  intro h
  have hl := congrArg List.length h
  simp [srcPath, destPath] at hl

theorem srcPath_ne {fn fn2 : String} (h : fn ≠ fn2) : srcPath fn ≠ srcPath fn2 := by
  intro he
  apply h
  simpa [srcPath] using he

theorem destPath_ne_of_fn {d d2 fn fn2 : String} (h : fn ≠ fn2) :
    destPath d fn ≠ destPath d2 fn2 := by
  intro he
  simp only [destPath, List.cons.injEq, and_true] at he
  exact h he.2.2

theorem moveOne_none {d fn : String} {fs : FS} {n : Nat} {ws : List String}
    (h : lookupFS fs (srcPath fn) = none) :
    moveOne false d fn (fs, n, ws) = (fs, n, ws ++ [fn]) := by
  simp only [moveOne, h]

theorem moveOne_some {d fn : String} {fs : FS} {n : Nat} {ws : List String}
    {c : String} (h : lookupFS fs (srcPath fn) = some c) :
    moveOne false d fn (fs, n, ws) =
      (unlinkFS (writeFS fs (destPath d fn) (pkgSubStr d c)) (srcPath fn),
        n + 1, ws) := by
  simp only [moveOne, h]
  rfl

theorem moveOne_dry {d fn : String} (st : FS × Nat × List String) :
    (moveOne true d fn st).1 = st.1 := by
  obtain ⟨fs, n, ws⟩ := st
  simp only [moveOne]
  cases lookupFS fs (srcPath fn) <;> rfl

/-- One live move step changes no path other than its own source and
destination. -/
theorem moveOne_fs_lookup {d fn : String} {fs : FS} {n : Nat} {ws : List String}
    {p : Path} (h1 : p ≠ srcPath fn) (h2 : p ≠ destPath d fn) :
    lookupFS (moveOne false d fn (fs, n, ws)).1 p = lookupFS fs p := by
  cases hc : lookupFS fs (srcPath fn) with
  | none => rw [moveOne_none hc]
  | some c =>
    rw [moveOne_some hc]
    show lookupFS (unlinkFS (writeFS fs (destPath d fn) (pkgSubStr d c))
      (srcPath fn)) p = _
    rw [lookupFS_unlink_ne h1, lookupFS_write_ne h2]

theorem moveFoldInner_dry (d : String) :
    ∀ (fns : List String) (acc : FS × Nat × List String),
      (fns.foldl (fun a fn => moveOne true d fn a) acc).1 = acc.1 := by
  intro fns
  induction fns with
  | nil => intro acc; rfl
  | cons fn fns ih =>
    intro acc
    rw [List.foldl_cons, ih, moveOne_dry]

theorem moveFold_dry :
    ∀ (L : List (String × List String)) (acc : FS × Nat × List String),
      (L.foldl (fun acc p => p.2.foldl (fun a fn => moveOne true p.1 fn a) acc)
        acc).1 = acc.1 := by
  intro L
  induction L with
  | nil => intro acc; rfl
  | cons p L2 ih =>
    intro acc
    rw [List.foldl_cons, ih, moveFoldInner_dry]

/-- C4: a preview (dry-run) invocation mutates nothing: the directory set and
every file of the tree are exactly as before, and the import stage reports
zero updated files because it is skipped. -/
theorem C4_dry_run_performs_no_mutation (sys : Sys) :
    (runPipeline true sys).1 = sys ∧ (runPipeline true sys).2.2.2 = 0 := by
  constructor
  · show (⟨createStage true sys.dirs, (moveStage true sys.fs).1⟩ : Sys) = sys
    rw [show createStage true sys.dirs = sys.dirs from rfl,
      show (moveStage true sys.fs).1 = sys.fs from
        moveFold_dry DOMAINS (sys.fs, 0, [])]
  · rfl

/-! ### The move loops as one fold over the (domain, filename) pairs -/

theorem moveFold_pairs (dry : Bool) :
    ∀ (L : List (String × List String)) (acc : FS × Nat × List String),
      L.foldl (fun acc p => p.2.foldl (fun a fn => moveOne dry p.1 fn a) acc) acc =
        ((L.map (fun p => p.2.map (fun fn => (p.1, fn)))).flatten).foldl
          (fun a q => moveOne dry q.1 q.2 a) acc := by
  intro L
  induction L with
  | nil => intro acc; rfl
  | cons p L2 ih =>
    intro acc
    rw [List.foldl_cons, ih, List.map_cons, List.flatten_cons, List.foldl_append]
    congr 1
    rw [List.foldl_map]

theorem moveStage_eq_pairs (dry : Bool) (fs : FS) :
    moveStage dry fs =
      movePairs.foldl (fun a q => moveOne dry q.1 q.2 a) (fs, 0, []) :=
  moveFold_pairs dry DOMAINS (fs, 0, [])

theorem movePairs_snd_nodup : (movePairs.map (·.2)).Nodup := by decide

theorem movePairs_length : movePairs.length = 33 := by decide

theorem triple_eta (x : FS × Nat × List String) : x = (x.1, x.2.1, x.2.2) := rfl

/-- A path that is neither a source nor a destination of any pair in the list
is untouched by the fold. -/
theorem pairsFold_path_frame :
    ∀ (L : List (String × String)) (fs : FS) (n : Nat) (ws : List String)
      (p : Path),
      (∀ r ∈ L, p ≠ srcPath r.2 ∧ p ≠ destPath r.1 r.2) →
      lookupFS (L.foldl (fun a q => moveOne false q.1 q.2 a) (fs, n, ws)).1 p =
        lookupFS fs p := by
  intro L
  induction L with
  | nil => intro fs n ws p _; rfl
  | cons q L2 ih =>
    intro fs n ws p h
    rw [List.foldl_cons, triple_eta (moveOne false q.1 q.2 (fs, n, ws)),
      ih _ _ _ p (fun r hr => h r (List.mem_cons_of_mem _ hr))]
    exact moveOne_fs_lookup (h q (by simp)).1 (h q (by simp)).2

/-- Per-pair results: `moved_count` adds one per present source, and the
warning list collects exactly the pairs whose source is absent, in order. -/
theorem pairsFold_chars :
    ∀ (L : List (String × String)) (fs : FS) (n : Nat) (ws : List String),
      (L.map (·.2)).Nodup →
      (L.foldl (fun a q => moveOne false q.1 q.2 a) (fs, n, ws)).2.1 =
          n + (L.filter (fun q => existsFS fs (srcPath q.2))).length ∧
      (L.foldl (fun a q => moveOne false q.1 q.2 a) (fs, n, ws)).2.2 =
          ws ++ (L.filter (fun q => !existsFS fs (srcPath q.2))).map (·.2) := by
  intro L
  induction L with
  | nil => intro fs n ws _; exact ⟨by simp, by simp⟩
  | cons q L2 ih =>
    intro fs n ws hnd
    rw [List.map_cons, List.nodup_cons] at hnd
    have hq2 : ∀ r ∈ L2, r.2 ≠ q.2 := by
      intro r hr he
      exact hnd.1 (he ▸ List.mem_map.mpr ⟨r, hr, rfl⟩)
    rw [List.foldl_cons]
    cases hex : existsFS fs (srcPath q.2) with
    | true =>
      obtain ⟨c, hc⟩ : ∃ c, lookupFS fs (srcPath q.2) = some c := by
        rw [existsFS_eq] at hex
        exact Option.isSome_iff_exists.mp hex
      rw [moveOne_some hc]
      have hfr : ∀ r ∈ L2,
          existsFS (unlinkFS (writeFS fs (destPath q.1 q.2) (pkgSubStr q.1 c))
            (srcPath q.2)) (srcPath r.2) = existsFS fs (srcPath r.2) := by
        intro r hr
        rw [existsFS_eq, existsFS_eq,
          lookupFS_unlink_ne (srcPath_ne (hq2 r hr)),
          lookupFS_write_ne (srcPath_ne_destPath r.2 q.1 q.2)]
      obtain ⟨ih1, ih2⟩ := ih (unlinkFS (writeFS fs (destPath q.1 q.2)
        (pkgSubStr q.1 c)) (srcPath q.2)) (n + 1) ws hnd.2
      have hfc1 : List.filter
          (fun r => existsFS (unlinkFS (writeFS fs (destPath q.1 q.2)
            (pkgSubStr q.1 c)) (srcPath q.2)) (srcPath r.2)) L2 =
          List.filter (fun r => existsFS fs (srcPath r.2)) L2 :=
        List.filter_congr (fun r hr => hfr r hr)
      have hfc2 : List.filter
          (fun r => !existsFS (unlinkFS (writeFS fs (destPath q.1 q.2)
            (pkgSubStr q.1 c)) (srcPath q.2)) (srcPath r.2)) L2 =
          List.filter (fun r => !existsFS fs (srcPath r.2)) L2 :=
        List.filter_congr (fun r hr => by rw [hfr r hr])
      constructor
      · rw [ih1, hfc1, List.filter_cons_of_pos (by exact hex)]
        simp only [List.length_cons]
        omega
      · rw [ih2, hfc2, List.filter_cons_of_neg (by rw [hex]; simp)]
    | false =>
      have hc : lookupFS fs (srcPath q.2) = none := by
        cases ho : lookupFS fs (srcPath q.2) with
        | none => rfl
        | some c =>
          rw [existsFS_eq, ho] at hex
          simp at hex
      rw [moveOne_none hc]
      obtain ⟨ih1, ih2⟩ := ih fs n (ws ++ [q.2]) hnd.2
      constructor
      · rw [ih1, List.filter_cons_of_neg (by rw [hex]; simp)]
      · rw [ih2, List.filter_cons_of_pos (by rw [hex]; rfl), List.map_cons,
          List.append_assoc]
        rfl

/-- The fold never creates a path that is not one of its destinations. -/
theorem pairsFold_no_create :
    ∀ (L : List (String × String)) (fs : FS) (n : Nat) (ws : List String)
      (p : Path), (∀ r ∈ L, p ≠ destPath r.1 r.2) →
      lookupFS fs p = none →
      lookupFS (L.foldl (fun a q => moveOne false q.1 q.2 a) (fs, n, ws)).1 p =
        none := by
  intro L
  induction L with
  | nil => intro fs n ws p _ h0; exact h0
  | cons q L2 ih =>
    intro fs n ws p h h0
    rw [List.foldl_cons]
    cases hc : lookupFS fs (srcPath q.2) with
    | none =>
      rw [moveOne_none hc]
      exact ih fs n (ws ++ [q.2]) p (fun r hr => h r (List.mem_cons_of_mem _ hr)) h0
    | some c =>
      rw [moveOne_some hc]
      apply ih _ (n + 1) ws p (fun r hr => h r (List.mem_cons_of_mem _ hr))
      by_cases hp : p = srcPath q.2
      · rw [hp]
        exact lookupFS_unlink_self _ _
      · rw [lookupFS_unlink_ne hp, lookupFS_write_ne (h q (by simp))]
        exact h0

/-- After the live move fold, every listed source path is absent. -/
theorem pairsFold_src_absent :
    ∀ (L : List (String × String)) (fs : FS) (n : Nat) (ws : List String),
      (L.map (·.2)).Nodup →
      ∀ q ∈ L,
        lookupFS (L.foldl (fun a r => moveOne false r.1 r.2 a) (fs, n, ws)).1
          (srcPath q.2) = none := by
  intro L
  induction L with
  | nil => intro fs n ws _ q hq; simp at hq
  | cons r L2 ih =>
    intro fs n ws hnd q hq
    rw [List.map_cons, List.nodup_cons] at hnd
    rw [List.foldl_cons]
    rcases List.mem_cons.mp hq with rfl | hq2
    · have hdest : ∀ r2 ∈ L2, srcPath q.2 ≠ destPath r2.1 r2.2 :=
        fun r2 _ => srcPath_ne_destPath q.2 r2.1 r2.2
      cases hc : lookupFS fs (srcPath q.2) with
      | none =>
        rw [moveOne_none hc]
        exact pairsFold_no_create L2 fs n (ws ++ [q.2]) _ hdest hc
      | some c =>
        rw [moveOne_some hc]
        exact pairsFold_no_create L2 _ (n + 1) ws _ hdest (lookupFS_unlink_self _ _)
    · rw [triple_eta (moveOne false r.1 r.2 (fs, n, ws))]
      exact ih _ _ _ hnd.2 q hq2

/-- If every listed source is absent, the fold only warns: the store is
unchanged, nothing is counted, and each file name is appended in order. -/
theorem pairsFold_all_absent :
    ∀ (L : List (String × String)) (fs : FS) (n : Nat) (ws : List String),
      (∀ q ∈ L, lookupFS fs (srcPath q.2) = none) →
      L.foldl (fun a q => moveOne false q.1 q.2 a) (fs, n, ws) =
        (fs, n, ws ++ L.map (·.2)) := by
  intro L
  induction L with
  | nil => intro fs n ws _; simp
  | cons q L2 ih =>
    intro fs n ws h
    rw [List.foldl_cons, moveOne_none (h q (by simp)),
      ih fs n (ws ++ [q.2]) (fun r hr => h r (List.mem_cons_of_mem _ hr)),
      List.map_cons, List.append_assoc]
    rfl

/-- A pair whose source is absent leaves its own destination untouched. -/
theorem pairsFold_dest_of_absent :
    ∀ (L : List (String × String)) (fs : FS) (n : Nat) (ws : List String)
      (d fn : String),
      (L.map (·.2)).Nodup → (d, fn) ∈ L →
      lookupFS fs (srcPath fn) = none →
      lookupFS (L.foldl (fun a q => moveOne false q.1 q.2 a) (fs, n, ws)).1
          (destPath d fn) =
        lookupFS fs (destPath d fn) := by
  intro L
  induction L with
  | nil => intro fs n ws d fn _ hmem _; simp at hmem
  | cons q L2 ih =>
    intro fs n ws d fn hnd hmem habs
    rw [List.map_cons, List.nodup_cons] at hnd
    rw [List.foldl_cons]
    rcases List.mem_cons.mp hmem with heq | hmem2
    · have hq : q.2 = fn := by rw [← heq]
      rw [moveOne_none (by rw [hq]; exact habs)]
      apply pairsFold_path_frame
      intro r hr
      have hrfn : r.2 ≠ fn := by
        intro he
        exact hnd.1 (by rw [hq, ← he]; exact List.mem_map.mpr ⟨r, hr, rfl⟩)
      exact ⟨fun he => srcPath_ne_destPath r.2 d fn he.symm,
        destPath_ne_of_fn (fun h2 => hrfn h2.symm)⟩
    · have hqfn : q.2 ≠ fn := by
        intro he
        exact hnd.1 (List.mem_map.mpr ⟨(d, fn), hmem2, he.symm⟩)
      cases hc : lookupFS fs (srcPath q.2) with
      | none =>
        rw [moveOne_none hc]
        exact ih fs n (ws ++ [q.2]) d fn hnd.2 hmem2 habs
      | some c =>
        rw [moveOne_some hc]
        rw [ih _ (n + 1) ws d fn hnd.2 hmem2 (by
          rw [lookupFS_unlink_ne (srcPath_ne (fun he => hqfn he.symm)),
            lookupFS_write_ne (srcPath_ne_destPath fn q.1 q.2)]
          exact habs)]
        rw [lookupFS_unlink_ne (fun he => srcPath_ne_destPath q.2 d fn he.symm),
          lookupFS_write_ne (destPath_ne_of_fn (fun he => hqfn he.symm))]

theorem length_filter_partition {α : Type} (p : α → Bool) :
    ∀ l : List α,
      (l.filter p).length + (l.filter (fun a => !p a)).length = l.length := by
  intro l
  induction l with
  | nil => rfl
  | cons a l ih =>
    rw [List.filter_cons, List.filter_cons]
    cases h : p a with
    | true =>
      rw [if_pos rfl, if_neg (by simp)]
      simp only [List.length_cons]
      omega
    | false =>
      rw [if_neg (by simp), if_pos (by simp)]
      simp only [List.length_cons]
      omega

/-- C7: in the live move stage, every configured pair whose source file is
absent yields a warning carrying that file name (in iteration order) and is
skipped — its destination is untouched — while processing continues: the
remaining pairs are all still processed, the moved count equals the number of
present sources, and warned plus moved together cover all 33 configured
files. -/
theorem C7_missing_files_warn_skip_continue (fs : FS) :
    (moveStage false fs).2.2 =
      (movePairs.filter (fun q => !existsFS fs (srcPath q.2))).map (·.2) ∧
    (moveStage false fs).2.1 =
      (movePairs.filter (fun q => existsFS fs (srcPath q.2))).length ∧
    (moveStage false fs).2.1 +
      ((movePairs.filter (fun q => !existsFS fs (srcPath q.2))).map (·.2)).length
      = 33 ∧
    (∀ d fn, (d, fn) ∈ movePairs → existsFS fs (srcPath fn) = false →
      lookupFS (moveStage false fs).1 (destPath d fn) =
        lookupFS fs (destPath d fn)) := by
  obtain ⟨h1, h2⟩ := pairsFold_chars movePairs fs 0 [] movePairs_snd_nodup
  refine ⟨?_, ?_, ?_, ?_⟩
  · rw [moveStage_eq_pairs, h2, List.nil_append]
  · rw [moveStage_eq_pairs, h1, Nat.zero_add]
  · rw [moveStage_eq_pairs, h1, Nat.zero_add, List.length_map]
    have hp := length_filter_partition
      (fun q => existsFS fs (srcPath q.2)) movePairs
    have hl := movePairs_length
    omega
  · intro d fn hmem habs
    have habs2 : lookupFS fs (srcPath fn) = none := by
      cases ho : lookupFS fs (srcPath fn) with
      | none => rfl
      | some c =>
        rw [existsFS_eq, ho] at habs
        simp at habs
    rw [moveStage_eq_pairs]
    exact pairsFold_dest_of_absent movePairs fs 0 [] d fn
      movePairs_snd_nodup hmem habs2

theorem C7_witness :
    ("rule", "PricingRule.java") ∈ movePairs ∧
    existsFS [(srcPath "Customer.java", "package com.meatrics.pricing;")]
      (srcPath "PricingRule.java") = false ∧
    lookupFS (moveStage false
      [(srcPath "Customer.java", "package com.meatrics.pricing;")]).1
      (destPath "rule" "PricingRule.java") =
      lookupFS [(srcPath "Customer.java", "package com.meatrics.pricing;")]
        (destPath "rule" "PricingRule.java") :=
  ⟨by decide, by decide,
    (C7_missing_files_warn_skip_continue
      [(srcPath "Customer.java", "package com.meatrics.pricing;")]).2.2.2
      "rule" "PricingRule.java" (by decide) (by decide)⟩

/-! ### The import-rewrite stage writes only changed files -/

theorem nodup_key_eq :
    ∀ {fs : FS}, (fs.map (·.1)).Nodup →
      ∀ {e e2 : Path × String}, e ∈ fs → e2 ∈ fs → e.1 = e2.1 → e = e2 := by
  intro fs
  induction fs with
  | nil => intro _ e e2 he _ _; simp at he
  | cons a fs ih =>
    intro hnd e e2 he he2 hk
    rw [List.map_cons, List.nodup_cons] at hnd
    rcases List.mem_cons.mp he with rfl | hm
    · rcases List.mem_cons.mp he2 with rfl | hm2
      · rfl
      · exact absurd (by rw [hk]; exact List.mem_map.mpr ⟨e2, hm2, rfl⟩) hnd.1
    · rcases List.mem_cons.mp he2 with rfl | hm2
      · exact absurd (by rw [← hk]; exact List.mem_map.mpr ⟨e, hm, rfl⟩) hnd.1
      · exact ih hnd.2 hm hm2 hk

theorem updFile_id {e : Path × String} (h : isJava e.1 = true → updStr e.2 = e.2) :
    updFile e = e := by
  unfold updFile
  cases hj : isJava e.1 with
  | false => rw [Bool.false_and, if_neg Bool.false_ne_true]
  | true =>
    rw [h hj, Bool.true_and]
    simp

theorem updFile_changed {e : Path × String} (hj : isJava e.1 = true)
    (hc : updStr e.2 ≠ e.2) : updFile e = (e.1, updStr e.2) := by
  unfold updFile
  rw [hj, Bool.true_and, if_pos (by
    cases hb : (updStr e.2 == e.2) with
    | true => exact absurd (beq_iff_eq.mp hb) hc
    | false => rfl)]

/-- C8: `update_imports` writes a file back exactly when its transformed
content differs from the original: an unchanged (or non-`.java`) file keeps
its entry untouched and is not in the written list, a changed `.java` file is
rewritten in place with the transformed content and is in the written list,
and the reported count equals the number of changed files. -/
theorem C8_write_back_only_if_changed (fs : FS) (hnd : (fs.map (·.1)).Nodup) :
    (∀ e ∈ fs, (isJava e.1 = true → updStr e.2 = e.2) →
      e ∈ (updateStage fs).1 ∧ e.1 ∉ (updateStage fs).2) ∧
    (∀ e ∈ fs, isJava e.1 = true → updStr e.2 ≠ e.2 →
      (e.1, updStr e.2) ∈ (updateStage fs).1 ∧ e.1 ∈ (updateStage fs).2) ∧
    (updateStage fs).2.length =
      (fs.filter (fun e => isJava e.1 && !(updStr e.2 == e.2))).length := by
  refine ⟨?_, ?_, ?_⟩
  · intro e he hfix
    constructor
    · show e ∈ fs.map updFile
      exact List.mem_map.mpr ⟨e, he, updFile_id hfix⟩
    · intro hmem
      obtain ⟨e2, hmem2, hk⟩ := List.mem_map.mp hmem
      have he2 := (List.mem_filter.mp hmem2).1
      have hq := (List.mem_filter.mp hmem2).2
      have hee : e2 = e := nodup_key_eq hnd he2 he hk
      rw [hee] at hq
      simp only [Bool.and_eq_true, Bool.not_eq_true'] at hq
      exact absurd (hfix hq.1) (fun hx => by rw [beq_iff_eq.mpr hx] at hq; simp at hq)
  · intro e he hj hc
    constructor
    · show (e.1, updStr e.2) ∈ fs.map updFile
      exact List.mem_map.mpr ⟨e, he, updFile_changed hj hc⟩
    · show e.1 ∈ (fs.filter (fun e => isJava e.1 && !(updStr e.2 == e.2))).map (·.1)
      refine List.mem_map.mpr ⟨e, List.mem_filter.mpr ⟨he, ?_⟩, rfl⟩
      rw [hj, Bool.true_and]
      cases hb : (updStr e.2 == e.2) with
      | true => exact absurd (beq_iff_eq.mp hb) hc
      | false => rfl
  · show ((fs.filter (fun e => isJava e.1 && !(updStr e.2 == e.2))).map (·.1)).length = _
    rw [List.length_map]

set_option maxRecDepth 8000 in
theorem C8_witness :
    ((["pricing", "B.java"] : Path), "int b;") ∈ (updateStage
      [(["pricing", "B.java"], "int b;"),
       (["pricing", "Other.java"], "import com.meatrics.pricing.Customer;")]).1 ∧
    (["pricing", "B.java"] : Path) ∉ (updateStage
      [(["pricing", "B.java"], "int b;"),
       (["pricing", "Other.java"], "import com.meatrics.pricing.Customer;")]).2 ∧
    ((["pricing", "Other.java"] : Path),
        updStr "import com.meatrics.pricing.Customer;") ∈ (updateStage
      [(["pricing", "B.java"], "int b;"),
       (["pricing", "Other.java"], "import com.meatrics.pricing.Customer;")]).1 ∧
    (["pricing", "Other.java"] : Path) ∈ (updateStage
      [(["pricing", "B.java"], "int b;"),
       (["pricing", "Other.java"], "import com.meatrics.pricing.Customer;")]).2 := by
  have h := C8_write_back_only_if_changed
    [(["pricing", "B.java"], "int b;"),
     (["pricing", "Other.java"], "import com.meatrics.pricing.Customer;")]
    (by decide)
  have h1 := h.1 (["pricing", "B.java"], "int b;") (by simp)
    (fun _ => by decide)
  have h2 := h.2.1 (["pricing", "Other.java"],
    "import com.meatrics.pricing.Customer;") (by simp) (by decide) (by decide)
  exact ⟨h1.1, h1.2, h2.1, h2.2⟩

/-! ### C6: exit status -/

/-- C6: the process exit status is zero on successful completion (live or
dry-run) and on a declined confirmation, and non-zero when the pricing
directory is missing or when the run ends in an unhandled runtime error — in
the latter case a diagnostic trace is printed. -/
theorem C6_exit_status (dry pricingExists : Bool) (resp : String) (ev : RunEv) :
    (pricingExists = false → mainExit dry pricingExists resp ev = (1, false)) ∧
    (pricingExists = true → dry = false → (lowerStr resp == "yes") = false →
      mainExit dry pricingExists resp ev = (0, false)) ∧
    (pricingExists = true → (dry = true ∨ (lowerStr resp == "yes") = true) →
      ev = RunEv.ok → mainExit dry pricingExists resp ev = (0, false)) ∧
    (pricingExists = true → (dry = true ∨ (lowerStr resp == "yes") = true) →
      ev = RunEv.excp → mainExit dry pricingExists resp ev = (1, true)) ∧
    (pricingExists = true → (dry = true ∨ (lowerStr resp == "yes") = true) →
      ev = RunEv.interrupt → mainExit dry pricingExists resp ev = (1, false)) := by
  have hbody : ∀ hp : pricingExists = true,
      ∀ hok : dry = true ∨ (lowerStr resp == "yes") = true,
      mainExit dry pricingExists resp ev =
        (match ev with
         | RunEv.ok => ((0 : Nat), false)
         | RunEv.interrupt => (1, false)
         | RunEv.excp => (1, true)) := by
    intro hp hok
    unfold mainExit
    rw [if_neg (by rw [hp]; simp)]
    rw [if_neg (by
      rcases hok with hd | hy
      · rw [hd]
        simp
      · rw [hy]
        simp)]
  refine ⟨?_, ?_, ?_, ?_, ?_⟩
  · intro hp
    unfold mainExit
    rw [if_pos hp]
  · intro hp hd hy
    unfold mainExit
    rw [if_neg (by rw [hp]; simp),
      if_pos (by rw [hd, hy]; simp)]
  · intro hp hok hev
    rw [hbody hp hok, hev]
  · intro hp hok hev
    rw [hbody hp hok, hev]
  · intro hp hok hev
    rw [hbody hp hok, hev]

theorem C6_witness :
    mainExit false false "yes" RunEv.ok = (1, false) ∧
    mainExit false true "No" RunEv.ok = (0, false) ∧
    mainExit true true "x" RunEv.ok = (0, false) ∧
    mainExit false true "YES" RunEv.excp = (1, true) ∧
    mainExit false true "yes" RunEv.interrupt = (1, false) :=
  ⟨(C6_exit_status false false "yes" RunEv.ok).1 rfl,
   (C6_exit_status false true "No" RunEv.ok).2.1 rfl rfl (by decide),
   (C6_exit_status true true "x" RunEv.ok).2.2.1 rfl (Or.inl rfl) rfl,
   (C6_exit_status false true "YES" RunEv.excp).2.2.2.1 rfl
     (Or.inr (by decide)) rfl,
   (C6_exit_status false true "yes" RunEv.interrupt).2.2.2.2 rfl
     (Or.inr (by decide)) rfl⟩

/-! ### Second-run invariants: fixpoint contents, absent sources, present
directories -/

theorem toList_mk (l : List Char) : (⟨l⟩ : String).toList = l := rfl

theorem updStr_idem (s : String) : updStr (updStr s) = updStr s := by
  unfold updStr
  rw [toList_mk, updImports_idem]

theorem updFile_fst (e : Path × String) : (updFile e).1 = e.1 := by
  unfold updFile
  split
  · rfl
  · rfl

theorem updateStage_java_fix (fs : FS) :
    ∀ e ∈ (updateStage fs).1, isJava e.1 = true → updStr e.2 = e.2 := by
  intro e he hj
  obtain ⟨e0, he0, hfe⟩ := List.mem_map.mp he
  by_cases hc : (isJava e0.1 && !(updStr e0.2 == e0.2)) = true
  · rw [show updFile e0 = (e0.1, updStr e0.2) from by
      unfold updFile; rw [if_pos hc]] at hfe
    rw [← hfe]
    show updStr (updStr e0.2) = updStr e0.2
    exact updStr_idem e0.2
  · rw [show updFile e0 = e0 from by unfold updFile; rw [if_neg hc]] at hfe
    have hj0 : isJava e0.1 = true := by rw [hfe]; exact hj
    rw [← hfe]
    cases hb : (updStr e0.2 == e0.2) with
    | true => exact beq_iff_eq.mp hb
    | false => exact absurd (by rw [hj0, hb]; rfl) hc

theorem updateStage_fixpoint {fs : FS}
    (h : ∀ e ∈ fs, isJava e.1 = true → updStr e.2 = e.2) :
    updateStage fs = (fs, []) := by
  unfold updateStage
  have h1 : fs.map updFile = fs := by
    calc fs.map updFile
        = fs.map id := List.map_congr_left (fun e he => updFile_id (h e he))
      _ = fs := List.map_id fs
  have h2 : fs.filter (fun e => isJava e.1 && !(updStr e.2 == e.2)) = [] := by
    rw [List.filter_eq_nil_iff]
    intro e he
    cases hj : isJava e.1 with
    | false => simp [hj]
    | true => simp [hj, h e he hj]
  rw [h1, h2]
  rfl

theorem lookupFS_map_updFile_none :
    ∀ (fs : FS) {p : Path}, lookupFS fs p = none →
      lookupFS (fs.map updFile) p = none := by
  intro fs
  induction fs with
  | nil => intro p h; exact h
  | cons e fs ih =>
    intro p h
    rw [List.map_cons, lookupFS_cons, updFile_fst]
    rw [lookupFS_cons] at h
    by_cases he : (e.1 == p) = true
    · rw [if_pos he] at h
      exact absurd h (by simp)
    · rw [if_neg he] at h
      rw [if_neg he]
      exact ih h

theorem mkdirFS_of_mem {ds : List Path} {d : Path} (h : d ∈ ds) :
    mkdirFS ds d = ds := by
  unfold mkdirFS
  rw [if_pos (by simpa using h)]

theorem mkdirFS_mem (ds : List Path) (d : Path) : d ∈ mkdirFS ds d := by
  unfold mkdirFS
  split
  · next h => simpa using h
  · simp

theorem mkdirFS_mono {ds : List Path} {x : Path} (h : x ∈ ds) (d : Path) :
    x ∈ mkdirFS ds d := by
  unfold mkdirFS
  split
  · exact h
  · simp [h]

theorem createFold_mono :
    ∀ (L : List (String × List String)) (ds : List Path) (x : Path), x ∈ ds →
      x ∈ L.foldl (fun ds p => mkdirFS ds (domainPath p.1)) ds := by
  intro L
  induction L with
  | nil => intro ds x h; exact h
  | cons p L2 ih =>
    intro ds x h
    rw [List.foldl_cons]
    exact ih _ x (mkdirFS_mono h _)

theorem createFold_mem :
    ∀ (L : List (String × List String)) (ds : List Path), ∀ p ∈ L,
      domainPath p.1 ∈ L.foldl (fun ds p => mkdirFS ds (domainPath p.1)) ds := by
  intro L
  induction L with
  | nil => intro ds p hp; simp at hp
  | cons q L2 ih =>
    intro ds p hp
    rw [List.foldl_cons]
    rcases List.mem_cons.mp hp with rfl | hp2
    · exact createFold_mono L2 _ _ (mkdirFS_mem ds (domainPath p.1))
    · exact ih _ p hp2

theorem createFold_id :
    ∀ (L : List (String × List String)) (ds : List Path),
      (∀ p ∈ L, domainPath p.1 ∈ ds) →
      L.foldl (fun ds p => mkdirFS ds (domainPath p.1)) ds = ds := by
  intro L
  induction L with
  | nil => intro ds _; rfl
  | cons q L2 ih =>
    intro ds h
    rw [List.foldl_cons, mkdirFS_of_mem (h q (by simp))]
    exact ih ds (fun p hp => h p (List.mem_cons_of_mem _ hp))

theorem createStage_idem (ds : List Path) :
    createStage false (createStage false ds) = createStage false ds := by
  show DOMAINS.foldl (fun ds p => mkdirFS ds (domainPath p.1))
    (createStage false ds) = _
  exact createFold_id DOMAINS _ (fun p hp => createFold_mem DOMAINS ds p hp)

theorem updateStage_lookup_none {fs : FS} {p : Path} (h : lookupFS fs p = none) :
    lookupFS (updateStage fs).1 p = none := lookupFS_map_updFile_none fs h

/-- The live pipeline, written out by stages. -/
theorem runPipeline_live (s : Sys) : runPipeline false s =
    (⟨createStage false s.dirs, (updateStage (moveStage false s.fs).1).1⟩,
     (moveStage false s.fs).2.1, (moveStage false s.fs).2.2,
     (updateStage (moveStage false s.fs).1).2.length) := rfl

attribute [irreducible] moveOne moveStage updateStage createStage runPipeline

/-- C3: a second live run is vacuous: after the first run every configured
file is absent from the flat location, so the second run's mover warns once
per configured file name (all 33, in iteration order) and moves zero files,
and the directory set and every file of the tree are exactly as after the
first run. -/
theorem C3_second_live_run_is_identity (sys : Sys) :
    (runPipeline false (runPipeline false sys).1).1 = (runPipeline false sys).1 ∧
    (runPipeline false (runPipeline false sys).1).2.1 = 0 ∧
    (runPipeline false (runPipeline false sys).1).2.2.1 = movePairs.map (·.2) := by
  have habs1 : ∀ q ∈ movePairs,
      lookupFS (updateStage (moveStage false sys.fs).1).1 (srcPath q.2) = none := by
    intro q hq
    have h0 : lookupFS (moveStage false sys.fs).1 (srcPath q.2) = none := by
      rw [moveStage_eq_pairs]
      exact pairsFold_src_absent movePairs sys.fs 0 [] movePairs_snd_nodup q hq
    exact updateStage_lookup_none h0
  have hmv2 : moveStage false (updateStage (moveStage false sys.fs).1).1 =
      ((updateStage (moveStage false sys.fs).1).1, 0, movePairs.map (·.2)) := by
    rw [moveStage_eq_pairs]
    have h0 := pairsFold_all_absent movePairs
      (updateStage (moveStage false sys.fs).1).1 0 [] habs1
    rw [List.nil_append] at h0
    exact h0
  have hup2 : updateStage (updateStage (moveStage false sys.fs).1).1 =
      ((updateStage (moveStage false sys.fs).1).1, []) :=
    updateStage_fixpoint (updateStage_java_fix (moveStage false sys.fs).1)
  have hup2b : updateStage ((updateStage (moveStage false sys.fs).1).1, (0 : Nat),
        movePairs.map (·.2)).1 =
      ((updateStage (moveStage false sys.fs).1).1, []) := by
    rw [show ((updateStage (moveStage false sys.fs).1).1, (0 : Nat),
      movePairs.map (·.2)).1 = (updateStage (moveStage false sys.fs).1).1 from rfl]
    exact hup2
  refine ⟨?_, ?_, ?_⟩
  · simp only [runPipeline_live]
    rw [hmv2, hup2b, createStage_idem]
  · simp only [runPipeline_live]
    rw [hmv2]
  · simp only [runPipeline_live]
    rw [hmv2]

end Meatrics